import Mathlib

/-!
Dynamic_queue_as_array: a dynamic cyclic queue.

A shallow embedding of `src/Dynamic_queue_as_array.h` and a verification
development over it.

Modelling conventions.

* The six data members of the class become the six fields of a structure.
  The `int` members are integers (`Int`).  `int` has 32 bits: the product
  `array_capacity * 2` of `enqueue` and the sums `ihead + i` of the copy loops
  are checked against `INT_MIN` and `INT_MAX`; a result outside that range is
  undefined behaviour in C++ (with wrap-around the doubled capacity is negative
  and `new` throws `std::bad_array_new_length` before any member is modified)
  and is the error `overflow` here.  The other sums and differences of the
  source (`itail + 1`, `ihead + 1`, `entry_count + 1`, `entry_count - 1`,
  `initial_capacity - 1`) stay between `-1` and `array_capacity`.
* `Type *array` is the list of the slots of the allocation it points to.
  `new Type[n]` yields `n` slots holding the default value of `Type`.
* Subscripting `array[i]` is checked against the allocation: an index
  outside of it is undefined behaviour in C++ and is the error
  `out_of_bounds` here.  `a % b` with `b = 0` is the error
  `division_by_zero`.  `throw underflow()` is the error `underflow`.
* C++ `/` and `%` on `int` truncate towards zero: `Int.tdiv`, `Int.tmod`.
* Member functions that modify `*this` return the new state; `dequeue`
  returns the removed entry together with the new state.
-/

set_option autoImplicit false

/-- The ways a member function can fail to return normally. -/
inductive QueueError where
  | underflow
  | out_of_bounds
  | division_by_zero
  | overflow
  deriving DecidableEq

deriving instance DecidableEq for Except

/-- The data members of `Dynamic_queue_as_array<Type>`. -/
structure Dynamic_queue_as_array (α : Type) where
  initial_capacity : Int
  array_capacity : Int
  array : List α
  ihead : Int
  itail : Int
  entry_count : Int
  deriving DecidableEq

namespace Dynamic_queue_as_array

variable {α : Type}

/-! Primitive operations of the source language -/

/-- The expression `new Type[n]`: a fresh allocation of `n` default slots. -/
def new_array [Inhabited α] (n : Int) : List α :=
  List.replicate n.toNat default

/-- The rvalue `a[i]` for an `int` index. -/
def read (a : List α) (i : Int) : Except QueueError α :=
  if 0 ≤ i then
    match a[i.toNat]? with
    | some x => .ok x
    | none => .error .out_of_bounds
  else .error .out_of_bounds

/-- The assignment `a[i] = x` for an `int` index. -/
def write (a : List α) (i : Int) (x : α) : Except QueueError (List α) :=
  if 0 ≤ i ∧ i < (a.length : Int) then .ok (a.set i.toNat x)
  else .error .out_of_bounds

/-- The expression `a % b` on `int`. -/
def cmod (a b : Int) : Except QueueError Int :=
  if b = 0 then .error .division_by_zero else .ok (Int.tmod a b)

/-- The largest value of `int`. -/
def INT_MAX : Int := 2147483647

/-- The smallest value of `int`. -/
def INT_MIN : Int := -2147483648

/-- The expression `a + b` on `int`. -/
def cadd (a b : Int) : Except QueueError Int :=
  if INT_MIN ≤ a + b ∧ a + b ≤ INT_MAX then .ok (a + b) else .error .overflow

/-- The expression `a * b` on `int`. -/
def cmul (a b : Int) : Except QueueError Int :=
  if INT_MIN ≤ a * b ∧ a * b ≤ INT_MAX then .ok (a * b) else .error .overflow

/-- The loop
`for(int i = 0; i < entry_count; ++i) newArray[i] = array[(ihead + i) % array_capacity];`
of `enqueue` and `dequeue`, started at index `i` with `n` iterations left. -/
def copy_entries (old : List α) (ihead cap : Int) :
    Nat → Int → List α → Except QueueError (List α)
  | 0, _, newArray => .ok newArray
  | n + 1, i, newArray => do
    let s ← cadd ihead i
    let j ← cmod s cap
    let x ← read old j
    let newArray ← write newArray i x
    copy_entries old ihead cap n (i + 1) newArray

/-- The loop `for(int i = 0; i < queue.array_capacity; ++i) array[i] = queue.array[i];`
of the copy constructor, started at index `i` with `n` iterations left. -/
def copy_slots (src : List α) : Nat → Int → List α → Except QueueError (List α)
  | 0, _, dst => .ok dst
  | n + 1, i, dst => do
    let x ← read src i
    let dst ← write dst i x
    copy_slots src n (i + 1) dst

/-! Member functions -/

/-- The constructor `Dynamic_queue_as_array( int n )`. -/
def construct [Inhabited α] (n : Int) : Dynamic_queue_as_array α :=
  let initial_capacity := max n 1
  { initial_capacity := initial_capacity
    array_capacity := initial_capacity
    array := new_array initial_capacity
    ihead := initial_capacity - 1
    itail := 0
    entry_count := 0 }

/-- The constructor called without an argument: the default argument is `10`. -/
def construct_default [Inhabited α] : Dynamic_queue_as_array α :=
  construct 10

/-- The copy constructor `Dynamic_queue_as_array( Dynamic_queue_as_array const & )`. -/
def copy_construct [Inhabited α] (queue : Dynamic_queue_as_array α) :
    Except QueueError (Dynamic_queue_as_array α) := do
  let array ← copy_slots queue.array queue.array_capacity.toNat 0
    (new_array queue.array_capacity)
  pure
    { initial_capacity := queue.initial_capacity
      array_capacity := queue.array_capacity
      array := array
      ihead := queue.ihead
      itail := queue.itail
      entry_count := queue.entry_count }

/-- The accessor `size()`. -/
def size (q : Dynamic_queue_as_array α) : Int :=
  q.entry_count

/-- The accessor `capacity()`. -/
def capacity (q : Dynamic_queue_as_array α) : Int :=
  q.array_capacity

/-- The accessor `empty()`. -/
def empty (q : Dynamic_queue_as_array α) : Bool :=
  q.entry_count == 0

/-- The accessor `head()`. -/
def head (q : Dynamic_queue_as_array α) : Except QueueError α :=
  if q.empty then .error .underflow
  else read q.array q.ihead

/-- The member `swap`: `a.swap(b)` returns the new `a` and the new `b`. -/
def swap (a b : Dynamic_queue_as_array α) :
    Dynamic_queue_as_array α × Dynamic_queue_as_array α :=
  let (a, b) := ({ a with initial_capacity := b.initial_capacity },
                 { b with initial_capacity := a.initial_capacity })
  let (a, b) := ({ a with array_capacity := b.array_capacity },
                 { b with array_capacity := a.array_capacity })
  let (a, b) := ({ a with array := b.array }, { b with array := a.array })
  let (a, b) := ({ a with ihead := b.ihead }, { b with ihead := a.ihead })
  let (a, b) := ({ a with itail := b.itail }, { b with itail := a.itail })
  let (a, b) := ({ a with entry_count := b.entry_count },
                 { b with entry_count := a.entry_count })
  (a, b)

/-- The `if` / `else if` / `else` statement that opens `enqueue`: the state in
which control reaches the store `array[itail] = obj`. -/
def enqueue_slot [Inhabited α] (q : Dynamic_queue_as_array α) :
    Except QueueError (Dynamic_queue_as_array α) :=
  if q.empty then
    pure { q with ihead := q.itail }
  else if q.size = q.array_capacity then do
    let doubled ← cmul q.array_capacity 2
    let newArray : List α := new_array doubled
    let newArray ←
      copy_entries q.array q.ihead q.array_capacity q.entry_count.toNat 0 newArray
    let q := { q with array := newArray }
    let doubled ← cmul q.array_capacity 2
    let q := { q with array_capacity := doubled }
    let q := { q with ihead := 0 }
    pure { q with itail := q.size }
  else do
    let t ← cmod (q.itail + 1) q.array_capacity
    pure { q with itail := t }

/-- The mutator `enqueue`. -/
def enqueue [Inhabited α] (q : Dynamic_queue_as_array α) (obj : α) :
    Except QueueError (Dynamic_queue_as_array α) := do
  let q ← enqueue_slot q
  let array ← write q.array q.itail obj
  pure { q with array := array, entry_count := q.entry_count + 1 }

/-- The mutator `dequeue`: the removed entry and the new state. -/
def dequeue [Inhabited α] (q : Dynamic_queue_as_array α) :
    Except QueueError (α × Dynamic_queue_as_array α) := do
  if q.empty then
    throw .underflow
  let element ← read q.array q.ihead
  let q ←
    if q.size = 1 then
      pure q
    else do
      let h ← cmod (q.ihead + 1) q.array_capacity
      pure { q with ihead := h }
  let q := { q with entry_count := q.entry_count - 1 }
  if q.size ≤ Int.tdiv q.array_capacity 4 ∧ q.array_capacity > q.initial_capacity then do
    let newArray : List α := new_array (Int.tdiv q.array_capacity 2)
    let newArray ←
      copy_entries q.array q.ihead q.array_capacity q.entry_count.toNat 0 newArray
    let q := { q with array := newArray }
    let q := { q with array_capacity := Int.tdiv q.array_capacity 2 }
    let q := { q with ihead := 0 }
    let q := { q with itail := q.size - 1 }
    pure (element, q)
  else
    pure (element, q)

/-- The mutator `clear`. -/
def clear [Inhabited α] (q : Dynamic_queue_as_array α) : Dynamic_queue_as_array α :=
  let q := { q with array_capacity := q.initial_capacity }
  let q := { q with array := new_array q.initial_capacity }
  let q := { q with ihead := q.initial_capacity - 1 }
  let q := { q with itail := 0 }
  { q with entry_count := 0 }

/-- The assignment operator: the argument is passed by value (copy constructed),
then swapped with `*this`; the temporary is destroyed. -/
def assign [Inhabited α] (self rhs : Dynamic_queue_as_array α) :
    Except QueueError (Dynamic_queue_as_array α) := do
  let rhs ← copy_construct rhs
  pure (swap self rhs).1

/-! Sequences of calls -/

/-- Enqueue the entries of a list, first to last. -/
def enqueue_all [Inhabited α] :
    Dynamic_queue_as_array α → List α → Except QueueError (Dynamic_queue_as_array α)
  | q, [] => .ok q
  | q, x :: xs => do
    let q ← enqueue q x
    enqueue_all q xs

/-- Call `dequeue` `n` times; the removed entries in the order of the calls, and
the final state. -/
def dequeue_n [Inhabited α] :
    Dynamic_queue_as_array α → Nat → Except QueueError (List α × Dynamic_queue_as_array α)
  | q, 0 => .ok ([], q)
  | q, n + 1 => do
    let (x, q) ← dequeue q
    let (xs, q) ← dequeue_n q n
    pure (x :: xs, q)


/-! Observable runs -/

/-- A call of a public member function. -/
inductive Call (α : Type) where
  | enqueue (obj : α)
  | dequeue
  | clear
  | head
  | size
  | empty
  | capacity
  deriving DecidableEq

/-- What the caller of a member function observes. -/
inductive Answer (α : Type) where
  | done
  | entry (x : α)
  | number (n : Int)
  | flag (b : Bool)
  | thrown_underflow
  deriving DecidableEq

/-- One call on a queue: what the caller observes and the state afterwards.  An
`underflow` exception is thrown before any member is modified and reaches the
caller, who can go on using the queue; the other errors (a subscript outside
the storage, a division by zero, an `int` overflow) are undefined behaviour and
end the run. -/
def call [Inhabited α] (q : Dynamic_queue_as_array α) :
    Call α → Except QueueError (Answer α × Dynamic_queue_as_array α)
  | .enqueue obj => do
    let q ← enqueue q obj
    pure (.done, q)
  | .dequeue =>
    match dequeue q with
    | .ok (x, q') => .ok (.entry x, q')
    | .error .underflow => .ok (.thrown_underflow, q)
    | .error e => .error e
  | .clear => .ok (.done, clear q)
  | .head =>
    match head q with
    | .ok x => .ok (.entry x, q)
    | .error .underflow => .ok (.thrown_underflow, q)
    | .error e => .error e
  | .size => .ok (.number (size q), q)
  | .empty => .ok (.flag (empty q), q)
  | .capacity => .ok (.number (capacity q), q)

/-- A sequence of calls: the observations in order and the final state. -/
def run [Inhabited α] :
    Dynamic_queue_as_array α → List (Call α) →
      Except QueueError (List (Answer α) × Dynamic_queue_as_array α)
  | q, [] => .ok ([], q)
  | q, c :: cs => do
    let (a, q) ← call q c
    let (as, q) ← run q cs
    pure (a :: as, q)

/-- The number of `enqueue` calls minus the number of `dequeue` calls that returned
an entry, in a run with the given calls and observations. -/
def net_count : List (Call α) → List (Answer α) → Int
  | .enqueue _ :: cs, _ :: as => net_count cs as + 1
  | .dequeue :: cs, .entry _ :: as => net_count cs as - 1
  | _ :: cs, _ :: as => net_count cs as
  | _, _ => 0

/-! Concrete states -/

/-- The state of a queue of `Nat` constructed with a capacity of `1` after two
`enqueue` calls and two `dequeue` calls: the second `dequeue` has halved the
storage back to one slot and set `itail` to `size() - 1`. -/
def shrunk_to_empty : Dynamic_queue_as_array Nat :=
  { initial_capacity := 1, array_capacity := 1, array := [0],
    ihead := 0, itail := -1, entry_count := 0 }

/-- The state of a queue of `Nat` constructed with argument `2` after
`enqueue(7)`, `enqueue(8)`, `enqueue(9)`: the third call has doubled the storage. -/
def grown_once : Dynamic_queue_as_array Nat :=
  { initial_capacity := 2, array_capacity := 4, array := [7, 8, 9, 0],
    ihead := 0, itail := 2, entry_count := 3 }

/-- The state of a queue of `Nat` constructed with argument `4` after four
`enqueue` calls, two `dequeue` calls and `enqueue(3)`, `enqueue(4)`: the queue is
full and the ring is wrapped, the oldest entry `1` being in slot `2`. -/
def wrapped_full : Dynamic_queue_as_array Nat :=
  { initial_capacity := 4, array_capacity := 4, array := [3, 4, 1, 2],
    ihead := 2, itail := 1, entry_count := 4 }

/-- The state of a queue of `Nat` constructed with argument `2` after
`enqueue(7)`, `enqueue(8)`, `enqueue(9)` and one `dequeue`: two entries in four
slots, so that the next `dequeue` halves the storage. -/
def before_shrink : Dynamic_queue_as_array Nat :=
  { initial_capacity := 2, array_capacity := 4, array := [7, 8, 9, 0],
    ihead := 1, itail := 2, entry_count := 2 }

/-- The state of a queue of `Nat` constructed with argument `1` after
`enqueue(1)`, `enqueue(2)` and one `dequeue`: one entry in two slots, so that the
next `dequeue` halves the storage and leaves the queue empty. -/
def before_halving : Dynamic_queue_as_array Nat :=
  { initial_capacity := 1, array_capacity := 2, array := [1, 2],
    ihead := 1, itail := 1, entry_count := 1 }

/-- A full queue of `Nat` with `2^30` slots, all of them holding `0`: the state
of a queue constructed with argument `1073741824` after as many `enqueue(0)`
calls. -/
def full_at_limit : Dynamic_queue_as_array Nat :=
  { initial_capacity := 1073741824, array_capacity := 1073741824,
    array := List.replicate 1073741824 0,
    ihead := 0, itail := 1073741823, entry_count := 1073741824 }

/-- A queue of `Nat` with an initial capacity of `10^9` and a capacity of
`2 * 10^9`, holding `500000001` entries `0` from slot `1800000000` on, so that the
ring is wrapped and the next `dequeue` halves the storage. -/
def shrink_at_limit : Dynamic_queue_as_array Nat :=
  { initial_capacity := 1000000000, array_capacity := 2000000000,
    array := List.replicate 2000000000 0,
    ihead := 1800000000, itail := 300000000, entry_count := 500000001 }

/-! Reachable states and the representation invariant -/

/-- The states a queue constructed with argument `n` can be in after calls of
`enqueue`, `dequeue` and `clear` that returned normally. -/
inductive Reachable [Inhabited α] (n : Int) : Dynamic_queue_as_array α → Prop where
  | construct : Reachable n (construct n)
  | enqueue {q q' : Dynamic_queue_as_array α} (obj : α) :
      Reachable n q → enqueue q obj = .ok q' → Reachable n q'
  | dequeue {q q' : Dynamic_queue_as_array α} {x : α} :
      Reachable n q → dequeue q = .ok (x, q') → Reachable n q'
  | clear {q : Dynamic_queue_as_array α} : Reachable n q → Reachable n (clear q)

/-- The state `q` holds the entries `xs`, oldest first: entry `i` is in slot
`(ihead + i) mod array_capacity`, the allocation has `array_capacity` slots, the
capacity is the initial capacity doubled some number of times, and above the
initial capacity more than a quarter of the slots are in use. -/
structure Represents (q : Dynamic_queue_as_array α) (xs : List α) : Prop where
  init_pos : 1 ≤ q.initial_capacity
  shape : ∃ k : Nat, q.array_capacity = q.initial_capacity * 2 ^ k
  length_eq : (q.array.length : Int) = q.array_capacity
  count_eq : q.entry_count = (xs.length : Int)
  count_le : (xs.length : Int) ≤ q.array_capacity
  head_lo : xs ≠ [] → 0 ≤ q.ihead
  head_hi : xs ≠ [] → q.ihead < q.array_capacity
  tail_eq : xs ≠ [] → q.itail = (q.ihead + ((xs.length : Int) - 1)) % q.array_capacity
  entries : ∀ (i : Nat) (h : i < xs.length),
    q.array[((q.ihead + (i : Int)) % q.array_capacity).toNat]? = some xs[i]
  occupancy : q.initial_capacity < q.array_capacity →
    q.array_capacity < 4 * (xs.length : Int)

/-- The states a queue constructed with argument `n` can be in after calls of
`enqueue`, `dequeue`, `clear` and the copy constructor that returned normally. -/
inductive Reachable_with_copy [Inhabited α] (n : Int) : Dynamic_queue_as_array α → Prop where
  | construct : Reachable_with_copy n (construct n)
  | enqueue {q q' : Dynamic_queue_as_array α} (obj : α) :
      Reachable_with_copy n q → enqueue q obj = .ok q' → Reachable_with_copy n q'
  | dequeue {q q' : Dynamic_queue_as_array α} {x : α} :
      Reachable_with_copy n q → dequeue q = .ok (x, q') → Reachable_with_copy n q'
  | clear {q : Dynamic_queue_as_array α} :
      Reachable_with_copy n q → Reachable_with_copy n (clear q)
  | copy {q q' : Dynamic_queue_as_array α} :
      Reachable_with_copy n q → copy_construct q = .ok q' → Reachable_with_copy n q'

theorem tmod_of_nonneg {a b : Int} (ha : 0 ≤ a) (hb : 0 < b) : Int.tmod a b = a % b :=
  Int.tmod_eq_emod ha (le_of_lt hb)

theorem emod_wrap {a b : Int} (ha : 0 ≤ a) (hab : a < 2 * b) :
    (a % b = a ∧ a < b) ∨ (a % b = a - b ∧ b ≤ a) := by
  by_cases h : a < b
  · exact Or.inl ⟨Int.emod_eq_of_lt ha h, h⟩
  · right
    have hb : b ≤ a := not_lt.mp h
    refine ⟨?_, hb⟩
    have h1 : (a - b) % b = a - b := Int.emod_eq_of_lt (by omega) (by omega)
    have h2 : a % b = (a - b) % b := by
      rw [Int.sub_emod, Int.emod_self, sub_zero, Int.emod_emod]
    rw [h2, h1]

/-! The primitive operations inside their domain -/

theorem read_ok {a : List α} {i : Int} {x : α} (hi : 0 ≤ i) (hx : a[i.toNat]? = some x) :
    read a i = .ok x := by
  simp [read, hi, hx]

theorem write_ok {a : List α} {i : Int} (x : α) (hi : 0 ≤ i) (hlt : i < (a.length : Int)) :
    write a i x = .ok (a.set i.toNat x) := by
  simp [write, hi, hlt]

theorem cmod_ok {a b : Int} (ha : 0 ≤ a) (hb : 0 < b) : cmod a b = .ok (a % b) := by
  have : b ≠ 0 := ne_of_gt hb
  simp [cmod, this, tmod_of_nonneg ha hb]

theorem cadd_ok {a b : Int} (h0 : -2147483648 ≤ a + b) (h1 : a + b ≤ 2147483647) :
    cadd a b = .ok (a + b) := by
  simp [cadd, INT_MIN, INT_MAX, h0, h1]

theorem cmul_ok {a b : Int} (h0 : -2147483648 ≤ a * b) (h1 : a * b ≤ 2147483647) :
    cmul a b = .ok (a * b) := by
  simp [cmul, INT_MIN, INT_MAX, h0, h1]

theorem cadd_overflow {a b : Int} (h : 2147483647 < a + b) :
    cadd a b = .error .overflow := by
  have : ¬ a + b ≤ 2147483647 := not_le.mpr h
  simp [cadd, INT_MAX, this]

theorem cmul_overflow {a b : Int} (h : 2147483647 < a * b) :
    cmul a b = .error .overflow := by
  have : ¬ a * b ≤ 2147483647 := not_le.mpr h
  simp [cmul, INT_MAX, this]

theorem write_eq_ok {a a' : List α} {i : Int} {x : α} (h : write a i x = .ok a') :
    0 ≤ i ∧ i < (a.length : Int) ∧ a' = a.set i.toNat x := by
  unfold write at h
  split at h
  · rename_i hc
    cases h
    exact ⟨hc.1, hc.2, rfl⟩
  · cases h

/-! The copy loops -/

theorem copy_entries_spec (old : List α) (ihead cap : Int) (hcap : 0 < cap)
    (hlen : (old.length : Int) = cap) (hh : 0 ≤ ihead) :
    ∀ (n k : Nat) (dst : List α), k + n ≤ dst.length →
      (n ≠ 0 → ihead + (k : Int) + (n : Int) - 1 ≤ 2147483647) →
      ∃ dst', copy_entries old ihead cap n (k : Int) dst = .ok dst' ∧
        dst'.length = dst.length ∧
        ∀ j : Nat, dst'[j]? =
          if k ≤ j ∧ j < k + n then old[((ihead + (j : Int)) % cap).toNat]? else dst[j]? := by
  intro n
  induction n with
  | zero =>
    intro k dst _ _
    refine ⟨dst, rfl, rfl, ?_⟩
    intro j
    have : ¬ (k ≤ j ∧ j < k + 0) := by omega
    rw [if_neg this]
  | succ n ih =>
    intro k dst hk hb
    have hb' := hb (Nat.succ_ne_zero n)
    push_cast at hb'
    have hnn : 0 ≤ ihead + (k : Int) := by omega
    have hadd : cadd ihead (k : Int) = .ok (ihead + (k : Int)) :=
      cadd_ok (by omega) (by omega)
    have hlo : 0 ≤ (ihead + (k : Int)) % cap := Int.emod_nonneg _ (ne_of_gt hcap)
    have hhi : (ihead + (k : Int)) % cap < cap := Int.emod_lt_of_pos _ hcap
    have hidx : ((ihead + (k : Int)) % cap).toNat < old.length := by omega
    obtain ⟨dst', h1, h2, h3⟩ :=
      ih (k + 1) (dst.set k (old[((ihead + (k : Int)) % cap).toNat])) (by
        rw [List.length_set]; omega) (by
        intro _
        push_cast
        omega)
    refine ⟨dst', ?_, ?_, ?_⟩
    · have hr : read old ((ihead + (k : Int)) % cap)
          = .ok (old[((ihead + (k : Int)) % cap).toNat]) :=
        read_ok hlo (List.getElem?_eq_getElem hidx)
      have hw : write dst (k : Int) (old[((ihead + (k : Int)) % cap).toNat])
          = .ok (dst.set k (old[((ihead + (k : Int)) % cap).toNat])) := by
        have := write_ok (a := dst) (i := (k : Int))
          (old[((ihead + (k : Int)) % cap).toNat]) (by omega) (by omega)
        simpa using this
      have h1' : copy_entries old ihead cap n ((k : Int) + 1)
          (dst.set k (old[((ihead + (k : Int)) % cap).toNat])) = .ok dst' := by
        have : ((k + 1 : Nat) : Int) = (k : Int) + 1 := by push_cast; ring
        rw [← this]; exact h1
      simp only [copy_entries, hadd, cmod_ok hnn hcap, hr, hw, h1', bind, Except.bind]
    · rw [h2, List.length_set]
    · intro j
      rw [h3 j]
      by_cases hj : j = k
      · subst hj
        have c1 : ¬ (j + 1 ≤ j ∧ j < j + 1 + n) := by omega
        have c2 : j ≤ j ∧ j < j + (n + 1) := by omega
        have hjl : j < dst.length := by omega
        rw [if_neg c1, if_pos c2, List.getElem?_set]
        simp [hjl, List.getElem?_eq_getElem hidx]
      · by_cases hr : k ≤ j ∧ j < k + (n + 1)
        · have c1 : k + 1 ≤ j ∧ j < k + 1 + n := by omega
          rw [if_pos c1, if_pos hr]
        · have c1 : ¬ (k + 1 ≤ j ∧ j < k + 1 + n) := by omega
          rw [if_neg c1, if_neg hr, List.getElem?_set]
          have : ¬ k = j := fun h => hj h.symm
          simp [this]

theorem copy_entries_overflow (old : List α) (ihead cap : Int) (hcap : 0 < cap)
    (hlen : (old.length : Int) = cap) (hh : 0 ≤ ihead) :
    ∀ (n k : Nat) (dst : List α), k + n ≤ dst.length → n ≠ 0 →
      2147483647 < ihead + (k : Int) + (n : Int) - 1 →
      copy_entries old ihead cap n (k : Int) dst = .error .overflow := by
  intro n
  induction n with
  | zero =>
    intro k dst _ hn _
    exact absurd rfl hn
  | succ n ih =>
    intro k dst hk _ hb
    push_cast at hb
    by_cases hs : ihead + (k : Int) ≤ 2147483647
    · have hnn : 0 ≤ ihead + (k : Int) := by omega
      have hadd : cadd ihead (k : Int) = .ok (ihead + (k : Int)) :=
        cadd_ok (by omega) hs
      have hlo : 0 ≤ (ihead + (k : Int)) % cap := Int.emod_nonneg _ (ne_of_gt hcap)
      have hhi : (ihead + (k : Int)) % cap < cap := Int.emod_lt_of_pos _ hcap
      have hidx : ((ihead + (k : Int)) % cap).toNat < old.length := by omega
      have hr : read old ((ihead + (k : Int)) % cap)
          = .ok (old[((ihead + (k : Int)) % cap).toNat]) :=
        read_ok hlo (List.getElem?_eq_getElem hidx)
      have hw : write dst (k : Int) (old[((ihead + (k : Int)) % cap).toNat])
          = .ok (dst.set k (old[((ihead + (k : Int)) % cap).toNat])) := by
        have := write_ok (a := dst) (i := (k : Int))
          (old[((ihead + (k : Int)) % cap).toNat]) (by omega) (by omega)
        simpa using this
      have hrec := ih (k + 1) (dst.set k (old[((ihead + (k : Int)) % cap).toNat]))
        (by rw [List.length_set]; omega) (by omega) (by push_cast; omega)
      have hrec' : copy_entries old ihead cap n ((k : Int) + 1)
          (dst.set k (old[((ihead + (k : Int)) % cap).toNat])) = .error .overflow := by
        have : ((k + 1 : Nat) : Int) = (k : Int) + 1 := by push_cast; ring
        rw [← this]; exact hrec
      simp only [copy_entries, hadd, cmod_ok hnn hcap, hr, hw, hrec', bind, Except.bind]
    · have hadd : cadd ihead (k : Int) = .error .overflow :=
        cadd_overflow (by omega)
      simp only [copy_entries, hadd, bind, Except.bind]

/-! The representation invariant is established and preserved -/

theorem Represents.cap_pos {q : Dynamic_queue_as_array α} {xs : List α}
    (h : Represents q xs) : 1 ≤ q.array_capacity ∧ q.initial_capacity ≤ q.array_capacity := by
  obtain ⟨k, hk⟩ := h.shape
  have h1 := h.init_pos
  have h2 : (1 : Int) ≤ 2 ^ k := one_le_pow₀ (by norm_num)
  have h3 : q.initial_capacity * 1 ≤ q.initial_capacity * 2 ^ k :=
    mul_le_mul_of_nonneg_left h2 (by omega)
  rw [hk]
  omega

theorem represents_construct [Inhabited α] (n : Int) :
    Represents (construct n : Dynamic_queue_as_array α) [] where
  init_pos := by simp [construct]
  shape := ⟨0, by simp [construct]⟩
  length_eq := by
    simp only [construct, new_array, List.length_replicate]
    omega
  count_eq := by simp [construct]
  count_le := by simp [construct]
  head_lo := by simp
  head_hi := by simp
  tail_eq := by simp
  entries := by simp
  occupancy := by simp [construct]

theorem enqueue_slot_of_empty [Inhabited α] (q : Dynamic_queue_as_array α)
    (hc : q.entry_count = 0) :
    enqueue_slot q = .ok { q with ihead := q.itail } := by
  simp only [enqueue_slot, empty, hc, pure, Except.pure]
  rfl

theorem enqueue_slot_of_room [Inhabited α] (q : Dynamic_queue_as_array α)
    (hc : q.entry_count ≠ 0) (hf : q.entry_count ≠ q.array_capacity)
    (hcap : 0 < q.array_capacity) (h0 : 0 ≤ q.itail + 1) :
    enqueue_slot q = .ok { q with itail := (q.itail + 1) % q.array_capacity } := by
  have hm := cmod_ok h0 hcap
  have he : (q.entry_count == 0) = false := by simpa using hc
  simp only [enqueue_slot, empty, size, he, hf, hm, bind, Except.bind, pure, Except.pure]
  rfl

theorem enqueue_slot_of_full [Inhabited α] (q : Dynamic_queue_as_array α)
    (newArray : List α)
    (hc : q.entry_count ≠ 0) (hf : q.entry_count = q.array_capacity)
    (hov : q.array_capacity * 2 ≤ 2147483647)
    (hcopy : copy_entries q.array q.ihead q.array_capacity q.entry_count.toNat 0
      (new_array (q.array_capacity * 2)) = .ok newArray)
    (h0 : 0 ≤ q.entry_count) :
    enqueue_slot q = .ok
      { initial_capacity := q.initial_capacity
        array_capacity := q.array_capacity * 2
        array := newArray
        ihead := 0
        itail := q.entry_count
        entry_count := q.entry_count } := by
  have he : (q.entry_count == 0) = false := by simpa using hc
  have he' : (q.array_capacity == 0) = false := by rw [← hf]; exact he
  have hm : cmul q.array_capacity 2 = .ok (q.array_capacity * 2) :=
    cmul_ok (by omega) hov
  rw [hf] at hcopy
  simp only [enqueue_slot, empty, size, hf, he', bind, Except.bind, pure, Except.pure, hm,
    hcopy]
  simp

theorem enqueue_slot_full_overflow [Inhabited α] (q : Dynamic_queue_as_array α)
    (hc : q.entry_count ≠ 0) (hf : q.entry_count = q.array_capacity)
    (hov : 2147483647 < q.array_capacity * 2) :
    enqueue_slot q = .error .overflow := by
  have he : (q.entry_count == 0) = false := by simpa using hc
  have he' : (q.array_capacity == 0) = false := by rw [← hf]; exact he
  simp only [enqueue_slot, empty, size, hf, he', bind, Except.bind, pure, Except.pure,
    cmul_overflow hov]
  simp

theorem enqueue_of_empty [Inhabited α] (q : Dynamic_queue_as_array α) (obj : α)
    (hc : q.entry_count = 0) (h0 : 0 ≤ q.itail) (h1 : q.itail < (q.array.length : Int)) :
    enqueue q obj = .ok
      { q with
        ihead := q.itail
        array := q.array.set q.itail.toNat obj
        entry_count := q.entry_count + 1 } := by
  have hw := write_ok (a := q.array) obj h0 h1
  simp only [enqueue, enqueue_slot_of_empty q hc, bind, Except.bind, pure, Except.pure, hw]

theorem enqueue_of_room [Inhabited α] (q : Dynamic_queue_as_array α) (obj : α)
    (hc : q.entry_count ≠ 0) (hf : q.entry_count ≠ q.array_capacity)
    (hcap : 0 < q.array_capacity) (h0 : 0 ≤ q.itail + 1)
    (h1 : (q.itail + 1) % q.array_capacity < (q.array.length : Int)) :
    enqueue q obj = .ok
      { q with
        itail := (q.itail + 1) % q.array_capacity
        array := q.array.set ((q.itail + 1) % q.array_capacity).toNat obj
        entry_count := q.entry_count + 1 } := by
  have hw := write_ok (a := q.array) obj
    (Int.emod_nonneg (q.itail + 1) (ne_of_gt hcap)) h1
  simp only [enqueue, enqueue_slot_of_room q hc hf hcap h0, bind, Except.bind, pure,
    Except.pure, hw]

theorem enqueue_of_full [Inhabited α] (q : Dynamic_queue_as_array α) (obj : α)
    (newArray : List α)
    (hc : q.entry_count ≠ 0) (hf : q.entry_count = q.array_capacity)
    (hov : q.array_capacity * 2 ≤ 2147483647)
    (hcopy : copy_entries q.array q.ihead q.array_capacity q.entry_count.toNat 0
      (new_array (q.array_capacity * 2)) = .ok newArray)
    (h0 : 0 ≤ q.entry_count) (h1 : q.entry_count < (newArray.length : Int)) :
    enqueue q obj = .ok
      { initial_capacity := q.initial_capacity
        array_capacity := q.array_capacity * 2
        array := newArray.set q.entry_count.toNat obj
        ihead := 0
        itail := q.entry_count
        entry_count := q.entry_count + 1 } := by
  have hw := write_ok (a := newArray) obj h0 h1
  simp only [enqueue, enqueue_slot_of_full q newArray hc hf hov hcopy h0, bind, Except.bind,
    pure, Except.pure, hw]

theorem enqueue_full_overflow [Inhabited α] (q : Dynamic_queue_as_array α) (obj : α)
    (hc : q.entry_count ≠ 0) (hf : q.entry_count = q.array_capacity)
    (hov : 2147483647 < q.array_capacity * 2) :
    enqueue q obj = .error .overflow := by
  simp only [enqueue, enqueue_slot_full_overflow q hc hf hov, bind, Except.bind]

theorem Represents.entries_get {q : Dynamic_queue_as_array α} {xs : List α}
    (h : Represents q xs) (i : Nat) (hi : i < xs.length) :
    q.array[((q.ihead + (i : Int)) % q.array_capacity).toNat]? = xs[i]? := by
  rw [h.entries i hi, List.getElem?_eq_getElem hi]

theorem enqueue_spec [Inhabited α] {q : Dynamic_queue_as_array α} {xs : List α}
    (h : Represents q xs)
    (ht : xs = [] → 0 ≤ q.itail ∧ q.itail < q.array_capacity)
    (hov : q.entry_count = q.array_capacity → q.array_capacity * 2 ≤ 2147483647)
    (obj : α) :
    ∃ q', enqueue q obj = .ok q' ∧ Represents q' (xs ++ [obj]) ∧
      q'.initial_capacity = q.initial_capacity ∧
      q'.array_capacity =
        (if q.entry_count = q.array_capacity then q.array_capacity * 2
         else q.array_capacity) ∧
      q'.ihead =
        (if q.entry_count = 0 then q.itail
         else if q.entry_count = q.array_capacity then 0 else q.ihead) := by
  have hcap := h.cap_pos
  have hlen := h.length_eq
  have hcnt := h.count_eq
  have hle := h.count_le
  have hip := h.init_pos
  by_cases hxs : xs = []
  · subst hxs
    obtain ⟨t0, t1⟩ := ht rfl
    simp only [List.length_nil, Nat.cast_zero] at hcnt
    have hne : ¬ q.entry_count = q.array_capacity := by omega
    refine ⟨_, enqueue_of_empty q obj hcnt t0 (by omega), ?_, rfl, ?_, ?_⟩
    · have hocc := h.occupancy
      simp only [List.length_nil, Nat.cast_zero] at hocc
      have hm : (q.itail + 0) % q.array_capacity = q.itail := by
        rw [add_zero]; exact Int.emod_eq_of_lt t0 t1
      constructor
      · exact hip
      · exact h.shape
      · simp only [List.length_set]; exact hlen
      · simp [hcnt]
      · simp only [List.nil_append, List.length_singleton]; omega
      · intro _; exact t0
      · intro _; exact t1
      · intro _
        simp only [List.nil_append, List.length_singleton, Nat.cast_one, sub_self]
        exact hm.symm
      · intro i hi
        simp only [List.nil_append, List.length_singleton] at hi
        have : i = 0 := by omega
        subst this
        simp only [Nat.cast_zero, hm, List.nil_append, List.getElem_singleton]
        rw [List.getElem?_set]
        have : q.itail.toNat < q.array.length := by omega
        simp [this]
      · intro hc
        simp only [List.nil_append, List.length_singleton]
        have := hocc hc
        omega
    · simp [hne]
    · simp [hcnt]
  · have hpos : 0 < xs.length := List.length_pos.mpr hxs
    have hh0 := h.head_lo hxs
    have hh1 := h.head_hi hxs
    have htl := h.tail_eq hxs
    have hc0 : q.entry_count ≠ 0 := by omega
    by_cases hfull : q.entry_count = q.array_capacity
    · have hc1 : 0 < q.array_capacity := by omega
      have hnl : (new_array (q.array_capacity * 2) : List α).length
          = (q.array_capacity * 2).toNat := by
        simp [new_array]
      have hov2 := hov hfull
      obtain ⟨newArray, c1, c2, c3⟩ :=
        copy_entries_spec q.array q.ihead q.array_capacity hc1 hlen hh0 xs.length 0
          (new_array (q.array_capacity * 2)) (by rw [hnl]; omega) (by
          intro _
          push_cast
          omega)
      have hn : q.entry_count.toNat = xs.length := by omega
      have c1' : copy_entries q.array q.ihead q.array_capacity q.entry_count.toNat 0
          (new_array (q.array_capacity * 2)) = .ok newArray := by
        rw [hn]; simpa using c1
      have hnl2 : (newArray.length : Int) = q.array_capacity * 2 := by
        rw [c2, hnl]; omega
      refine ⟨_, enqueue_of_full q obj newArray hc0 hfull hov2 c1' (by omega) (by omega),
        ?_, rfl, ?_, ?_⟩
      · constructor
        · exact hip
        · obtain ⟨k, hk⟩ := h.shape
          refine ⟨k + 1, ?_⟩
          simp only
          rw [hk, pow_succ]
          ring
        · simp only [List.length_set]; exact hnl2
        · simp only [List.length_append, List.length_singleton]; push_cast; omega
        · simp only [List.length_append, List.length_singleton]; push_cast; omega
        · intro _; exact le_refl _
        · intro _; simp only; omega
        · intro _
          simp only [List.length_append, List.length_singleton]
          push_cast
          rw [Int.emod_eq_of_lt (by omega) (by omega)]
          omega
        · intro i hi
          simp only [List.length_append, List.length_singleton] at hi
          rw [← List.getElem?_eq_getElem (by simp; omega)]
          simp only
          rw [Int.emod_eq_of_lt (by omega) (by omega), List.getElem?_set]
          have hz : (0 + (i : Int)).toNat = i := by omega
          rw [hz]
          by_cases hi' : i = xs.length
          · subst hi'
            have hl : xs.length < newArray.length := by omega
            simp [hn, hl]
          · have hi2 : i < xs.length := by omega
            have hne : ¬ q.entry_count.toNat = i := by omega
            rw [if_neg hne, c3 i, if_pos (by omega), h.entries_get i hi2,
              List.getElem?_append_left hi2]
        · intro _
          simp only [List.length_append, List.length_singleton]
          push_cast
          omega
      · simp [hfull]
      · show (0 : Int) = _
        rw [if_neg hc0, if_pos hfull]
    · have key : (q.itail + 1) % q.array_capacity
          = (q.ihead + (xs.length : Int)) % q.array_capacity := by
        rw [htl, Int.emod_add_emod]
        congr 1
        ring
      have hc1 : 0 < q.array_capacity := by omega
      have t0 : 0 ≤ q.itail := by
        rw [htl]; exact Int.emod_nonneg _ (ne_of_gt hc1)
      have s0 : 0 ≤ (q.itail + 1) % q.array_capacity := Int.emod_nonneg _ (ne_of_gt hc1)
      have s1 : (q.itail + 1) % q.array_capacity < q.array_capacity :=
        Int.emod_lt_of_pos _ hc1
      refine ⟨_, enqueue_of_room q obj hc0 hfull hc1 (by omega) (by omega), ?_, rfl, ?_,
        ?_⟩
      · constructor
        · exact hip
        · exact h.shape
        · simp only [List.length_set]; exact hlen
        · simp only [List.length_append, List.length_singleton]; push_cast; omega
        · simp only [List.length_append, List.length_singleton]; push_cast; omega
        · intro _; exact hh0
        · intro _; exact hh1
        · intro _
          simp only [List.length_append, List.length_singleton]
          rw [key]
          congr 1
          push_cast
          ring
        · intro i hi
          simp only [List.length_append, List.length_singleton] at hi
          rw [← List.getElem?_eq_getElem (by simp; omega)]
          simp only
          rw [key, List.getElem?_set]
          rcases emod_wrap (a := q.ihead + (i : Int)) (b := q.array_capacity)
            (by omega) (by omega) with ⟨e1, e2⟩ | ⟨e1, e2⟩ <;>
          rcases emod_wrap (a := q.ihead + (xs.length : Int)) (b := q.array_capacity)
            (by omega) (by omega) with ⟨f1, f2⟩ | ⟨f1, f2⟩
          all_goals
            by_cases hi' : i = xs.length
            · subst hi'
              have hl : ((q.ihead + (xs.length : Int)) % q.array_capacity).toNat
                  < q.array.length := by omega
              simp [hl]
            · have hi2 : i < xs.length := by omega
              have hne : ¬ ((q.ihead + (xs.length : Int)) % q.array_capacity).toNat
                  = ((q.ihead + (i : Int)) % q.array_capacity).toNat := by
                rw [e1, f1]; omega
              rw [if_neg hne, h.entries_get i hi2, List.getElem?_append_left hi2]
        · intro hc
          have := h.occupancy hc
          simp only [List.length_append, List.length_singleton]
          push_cast
          omega
      · simp [hfull]
      · simp [hc0, hfull]

theorem dequeue_of_keep [Inhabited α] (q : Dynamic_queue_as_array α) (x : α)
    (hc : q.entry_count ≠ 0) (hr : read q.array q.ihead = .ok x)
    (hm : q.entry_count ≠ 1 → 0 < q.array_capacity ∧ 0 ≤ q.ihead + 1)
    (hk : ¬ (q.entry_count - 1 ≤ Int.tdiv q.array_capacity 4 ∧
      q.array_capacity > q.initial_capacity)) :
    dequeue q = .ok (x,
      { q with
        ihead := if q.entry_count = 1 then q.ihead
                 else (q.ihead + 1) % q.array_capacity
        entry_count := q.entry_count - 1 }) := by
  have he : (q.entry_count == 0) = false := by simpa using hc
  by_cases h1 : q.entry_count = 1
  · simp only [dequeue, empty, size, he, hr, h1, bind, Except.bind, pure, Except.pure]
    rw [h1] at hk
    simp only [if_true, Bool.false_eq_true, if_false, if_neg hk]
    rfl
  · obtain ⟨a, b⟩ := hm h1
    simp only [dequeue, empty, size, he, hr, h1, bind, Except.bind, pure, Except.pure,
      cmod_ok b a]
    simp only [if_true, Bool.false_eq_true, if_false, if_neg hk]

theorem dequeue_of_shrink [Inhabited α] (q : Dynamic_queue_as_array α) (x : α)
    (newArray : List α)
    (hc : q.entry_count ≠ 0) (hr : read q.array q.ihead = .ok x)
    (hm : q.entry_count ≠ 1 → 0 < q.array_capacity ∧ 0 ≤ q.ihead + 1)
    (hk : q.entry_count - 1 ≤ Int.tdiv q.array_capacity 4 ∧
      q.array_capacity > q.initial_capacity)
    (hcopy : copy_entries q.array
      (if q.entry_count = 1 then q.ihead else (q.ihead + 1) % q.array_capacity)
      q.array_capacity (q.entry_count - 1).toNat 0
      (new_array (Int.tdiv q.array_capacity 2)) = .ok newArray) :
    dequeue q = .ok (x,
      { initial_capacity := q.initial_capacity
        array_capacity := Int.tdiv q.array_capacity 2
        array := newArray
        ihead := 0
        itail := q.entry_count - 1 - 1
        entry_count := q.entry_count - 1 }) := by
  have he : (q.entry_count == 0) = false := by simpa using hc
  by_cases h1 : q.entry_count = 1
  · simp only [dequeue, empty, size, he, hr, h1, bind, Except.bind, pure, Except.pure]
    rw [h1] at hk
    simp only [h1, if_true] at hcopy
    simp only [if_true, Bool.false_eq_true, if_false, if_pos hk, hcopy]
    rfl
  · obtain ⟨a, b⟩ := hm h1
    simp only [h1, if_false] at hcopy
    simp only [dequeue, empty, size, he, hr, h1, bind, Except.bind, pure, Except.pure,
      cmod_ok b a]
    simp only [if_true, Bool.false_eq_true, if_false, if_pos hk, hcopy]

theorem dequeue_of_shrink_error [Inhabited α] (q : Dynamic_queue_as_array α) (x : α)
    (e : QueueError)
    (hc : q.entry_count ≠ 0) (hr : read q.array q.ihead = .ok x)
    (hm : q.entry_count ≠ 1 → 0 < q.array_capacity ∧ 0 ≤ q.ihead + 1)
    (hk : q.entry_count - 1 ≤ Int.tdiv q.array_capacity 4 ∧
      q.array_capacity > q.initial_capacity)
    (hcopy : copy_entries q.array
      (if q.entry_count = 1 then q.ihead else (q.ihead + 1) % q.array_capacity)
      q.array_capacity (q.entry_count - 1).toNat 0
      (new_array (Int.tdiv q.array_capacity 2)) = .error e) :
    dequeue q = .error e := by
  have he : (q.entry_count == 0) = false := by simpa using hc
  by_cases h1 : q.entry_count = 1
  · simp only [dequeue, empty, size, he, hr, h1, bind, Except.bind, pure, Except.pure]
    rw [h1] at hk
    simp only [h1, if_true] at hcopy
    simp only [if_true, Bool.false_eq_true, if_false, if_pos hk, hcopy]
    rfl
  · obtain ⟨a, b⟩ := hm h1
    simp only [h1, if_false] at hcopy
    simp only [dequeue, empty, size, he, hr, h1, bind, Except.bind, pure, Except.pure,
      cmod_ok b a]
    simp only [if_true, Bool.false_eq_true, if_false, if_pos hk, hcopy]

theorem Represents.halving {q : Dynamic_queue_as_array α} {xs : List α}
    (h : Represents q xs) (hgt : q.initial_capacity < q.array_capacity) :
    ∃ k : Nat, q.array_capacity / 2 = q.initial_capacity * 2 ^ k ∧
      q.array_capacity = 2 * (q.array_capacity / 2) := by
  obtain ⟨k, hk⟩ := h.shape
  cases k with
  | zero =>
    simp only [pow_zero, mul_one] at hk
    omega
  | succ k =>
    have h2 : q.array_capacity = 2 * (q.initial_capacity * 2 ^ k) := by
      rw [hk, pow_succ]; ring
    refine ⟨k, ?_, ?_⟩ <;> omega

theorem dequeue_spec [Inhabited α] {q : Dynamic_queue_as_array α} {x : α} {xs : List α}
    (h : Represents q (x :: xs))
    (hsum : q.entry_count - 1 ≤ Int.tdiv q.array_capacity 4 ∧
        q.array_capacity > q.initial_capacity → 2 ≤ q.entry_count →
      (q.ihead + 1) % q.array_capacity + (q.entry_count - 2) ≤ 2147483647) :
    ∃ q', dequeue q = .ok (x, q') ∧ Represents q' xs ∧
      q'.initial_capacity = q.initial_capacity ∧
      q'.array_capacity =
        (if q.entry_count - 1 ≤ Int.tdiv q.array_capacity 4 ∧
            q.array_capacity > q.initial_capacity
         then Int.tdiv q.array_capacity 2 else q.array_capacity) ∧
      (2 ≤ q.initial_capacity ∨ xs ≠ [] →
        0 ≤ q'.itail ∧ q'.itail < q'.array_capacity) ∧
      q'.ihead =
        (if q.entry_count - 1 ≤ Int.tdiv q.array_capacity 4 ∧
            q.array_capacity > q.initial_capacity
         then 0
         else if q.entry_count = 1 then q.ihead
         else (q.ihead + 1) % q.array_capacity) := by
  have hcap := h.cap_pos
  have hlen := h.length_eq
  have hcnt := h.count_eq
  have hle := h.count_le
  have hip := h.init_pos
  have hh0 := h.head_lo (List.cons_ne_nil _ _)
  have hh1 := h.head_hi (List.cons_ne_nil _ _)
  have htl := h.tail_eq (List.cons_ne_nil _ _)
  have hocc := h.occupancy
  simp only [List.length_cons] at hcnt hle htl hocc
  push_cast at hcnt hle htl hocc
  have hc1 : 0 < q.array_capacity := by omega
  have hc0 : q.entry_count ≠ 0 := by omega
  have hd4 : Int.tdiv q.array_capacity 4 = q.array_capacity / 4 :=
    Int.tdiv_eq_ediv (by omega) (by norm_num)
  have hd2 : Int.tdiv q.array_capacity 2 = q.array_capacity / 2 :=
    Int.tdiv_eq_ediv (by omega) (by norm_num)
  have hr : read q.array q.ihead = .ok x := by
    have := h.entries 0 (by simp)
    simp only [Nat.cast_zero, add_zero, Int.emod_eq_of_lt hh0 hh1,
      List.getElem_cons_zero] at this
    exact read_ok hh0 this
  have hm : q.entry_count ≠ 1 → 0 < q.array_capacity ∧ 0 ≤ q.ihead + 1 :=
    fun _ => ⟨hc1, by omega⟩
  have t0 : 0 ≤ q.itail := by
    rw [htl]; exact Int.emod_nonneg _ (ne_of_gt hc1)
  have t1 : q.itail < q.array_capacity := by
    rw [htl]; exact Int.emod_lt_of_pos _ hc1
  -- the head index after the removal
  have hhead : ∀ hd : Int,
      hd = (if q.entry_count = 1 then q.ihead else (q.ihead + 1) % q.array_capacity) →
      0 ≤ hd ∧ hd < q.array_capacity ∧
      (xs ≠ [] → q.itail = (hd + ((xs.length : Int) - 1)) % q.array_capacity) ∧
      (∀ (i : Nat), i < xs.length →
        q.array[((hd + (i : Int)) % q.array_capacity).toNat]? = xs[i]?) := by
    intro hd hdef
    by_cases h1 : q.entry_count = 1
    · rw [if_pos h1] at hdef
      have hl : xs.length = 0 := by omega
      have hnil : xs = [] := List.length_eq_zero.mp hl
      subst hdef
      refine ⟨hh0, hh1, fun hne => absurd hnil hne, ?_⟩
      intro i hi
      omega
    · rw [if_neg h1] at hdef
      subst hdef
      refine ⟨Int.emod_nonneg _ (ne_of_gt hc1), Int.emod_lt_of_pos _ hc1, ?_, ?_⟩
      · intro _
        rw [Int.emod_add_emod, htl]
        congr 1
        ring
      · intro i hi
        rw [Int.emod_add_emod]
        have := h.entries_get (i + 1) (by simp; omega)
        simp only [List.getElem?_cons_succ] at this
        rw [← this]
        congr 3
        push_cast
        ring
  obtain ⟨g0, g1, gt, ge⟩ := hhead _ rfl
  by_cases hk : q.entry_count - 1 ≤ Int.tdiv q.array_capacity 4 ∧
      q.array_capacity > q.initial_capacity
  · obtain ⟨k, hk1, hk2⟩ := h.halving hk.2
    have hpow : (1 : Int) ≤ 2 ^ k := one_le_pow₀ (by norm_num)
    have hhalf : q.initial_capacity ≤ q.array_capacity / 2 := by
      rw [hk1]
      have := mul_le_mul_of_nonneg_left hpow (show (0 : Int) ≤ q.initial_capacity by omega)
      omega
    have hnl : (new_array (Int.tdiv q.array_capacity 2) : List α).length
        = (q.array_capacity / 2).toNat := by
      simp [new_array, hd2]
    have hk4 : q.entry_count - 1 ≤ q.array_capacity / 4 := by rw [← hd4]; exact hk.1
    obtain ⟨newArray, c1, c2, c3⟩ :=
      copy_entries_spec q.array
        (if q.entry_count = 1 then q.ihead else (q.ihead + 1) % q.array_capacity)
        q.array_capacity hc1 hlen g0 xs.length 0
        (new_array (Int.tdiv q.array_capacity 2)) (by rw [hnl]; omega) (by
        intro hn0
        have h2 : 2 ≤ q.entry_count := by omega
        have h1 : ¬ q.entry_count = 1 := by omega
        have := hsum hk h2
        rw [if_neg h1]
        push_cast
        omega)
    have hn : (q.entry_count - 1).toNat = xs.length := by omega
    have c1' : copy_entries q.array
        (if q.entry_count = 1 then q.ihead else (q.ihead + 1) % q.array_capacity)
        q.array_capacity (q.entry_count - 1).toNat 0
        (new_array (Int.tdiv q.array_capacity 2)) = .ok newArray := by
      rw [hn]; simpa using c1
    refine ⟨_, dequeue_of_shrink q x newArray hc0 hr hm hk c1', ?_, rfl, ?_, ?_, ?_⟩
    · constructor
      · exact hip
      · exact ⟨k, by rw [hd2]; exact hk1⟩
      · show (newArray.length : Int) = Int.tdiv q.array_capacity 2
        rw [c2, hnl, hd2]
        omega
      · show q.entry_count - 1 = (xs.length : Int)
        omega
      · show (xs.length : Int) ≤ Int.tdiv q.array_capacity 2
        rw [hd2]
        omega
      · intro _; exact le_refl _
      · intro _
        show 0 < Int.tdiv q.array_capacity 2
        rw [hd2]
        omega
      · intro hne
        have hpos : 0 < xs.length := List.length_pos.mpr hne
        show q.entry_count - 1 - 1
          = (0 + ((xs.length : Int) - 1)) % Int.tdiv q.array_capacity 2
        rw [hd2, Int.emod_eq_of_lt (by omega) (by omega)]
        omega
      · intro i hi
        rw [← List.getElem?_eq_getElem hi]
        show newArray[((0 + (i : Int)) % Int.tdiv q.array_capacity 2).toNat]? = xs[i]?
        rw [hd2, Int.emod_eq_of_lt (by omega) (by omega)]
        have hz : (0 + (i : Int)).toNat = i := by omega
        rw [hz, c3 i, if_pos (by omega)]
        exact ge i hi
      · show q.initial_capacity < Int.tdiv q.array_capacity 2 →
          Int.tdiv q.array_capacity 2 < 4 * (xs.length : Int)
        rw [hd2]
        intro hc
        have := hocc hk.2
        omega
    · rw [if_pos hk]
    · intro hv
      show 0 ≤ q.entry_count - 1 - 1 ∧ q.entry_count - 1 - 1 < Int.tdiv q.array_capacity 2
      rw [hd2]
      have := hocc hk.2
      have hpos : 0 < xs.length := by
        rcases hv with hv | hv
        · by_contra hz
          have : xs.length = 0 := by omega
          omega
        · exact List.length_pos.mpr hv
      omega
    · rw [if_pos hk]
  · refine ⟨_, dequeue_of_keep q x hc0 hr hm hk, ?_, rfl, ?_, ?_, ?_⟩
    · constructor
      · exact hip
      · exact h.shape
      · exact hlen
      · show q.entry_count - 1 = (xs.length : Int)
        omega
      · show (xs.length : Int) ≤ q.array_capacity
        omega
      · intro _; exact g0
      · intro _; exact g1
      · exact gt
      · intro i hi
        rw [← List.getElem?_eq_getElem hi]
        exact ge i hi
      · show q.initial_capacity < q.array_capacity →
          q.array_capacity < 4 * (xs.length : Int)
        intro hc
        rw [hd4] at hk
        omega
    · rw [if_neg hk]
    · intro _
      exact ⟨t0, t1⟩
    · rw [if_neg hk]

theorem dequeue_of_empty [Inhabited α] (q : Dynamic_queue_as_array α)
    (hc : q.entry_count = 0) : dequeue q = .error .underflow := by
  simp [dequeue, empty, hc, bind, Except.bind, throw, throwThe, MonadExceptOf.throw]

theorem head_of_empty (q : Dynamic_queue_as_array α)
    (hc : q.entry_count = 0) : head q = .error .underflow := by
  simp [head, empty, hc]

theorem enqueue_empty_ok_tail [Inhabited α] {q q' : Dynamic_queue_as_array α} {obj : α}
    (hc : q.entry_count = 0) (h : enqueue q obj = .ok q') :
    0 ≤ q.itail ∧ q.itail < (q.array.length : Int) := by
  simp only [enqueue, enqueue_slot_of_empty q hc, bind, Except.bind, pure, Except.pure] at h
  cases hw : write q.array q.itail obj with
  | error e => simp [hw] at h
  | ok a =>
    obtain ⟨a0, a1, _⟩ := write_eq_ok hw
    exact ⟨a0, a1⟩

theorem represents_clear [Inhabited α] {q : Dynamic_queue_as_array α} {xs : List α}
    (h : Represents q xs) : Represents (clear q) [] where
  init_pos := h.init_pos
  shape := ⟨0, by simp [clear]⟩
  length_eq := by
    have := h.init_pos
    simp only [clear, new_array, List.length_replicate]
    omega
  count_eq := by simp [clear]
  count_le := by
    have := h.init_pos
    simp only [clear, List.length_nil, Nat.cast_zero]
    omega
  head_lo := by simp
  head_hi := by simp
  tail_eq := by simp
  entries := by simp
  occupancy := by simp [clear]

theorem dequeue_shrink_overflow [Inhabited α] (q : Dynamic_queue_as_array α)
    (hlen : (q.array.length : Int) = q.array_capacity)
    (hh0 : 0 ≤ q.ihead) (hh1 : q.ihead < q.array_capacity) (h2 : 2 ≤ q.entry_count)
    (hk : q.entry_count - 1 ≤ Int.tdiv q.array_capacity 4 ∧
      q.array_capacity > q.initial_capacity)
    (hov : 2147483647 < (q.ihead + 1) % q.array_capacity + (q.entry_count - 2)) :
    dequeue q = .error .overflow := by
  have hc1 : 0 < q.array_capacity := by omega
  have hd4 : Int.tdiv q.array_capacity 4 = q.array_capacity / 4 :=
    Int.tdiv_eq_ediv (by omega) (by norm_num)
  have hd2 : Int.tdiv q.array_capacity 2 = q.array_capacity / 2 :=
    Int.tdiv_eq_ediv (by omega) (by norm_num)
  have hk4 : q.entry_count - 1 ≤ q.array_capacity / 4 := by rw [← hd4]; exact hk.1
  have hidx : q.ihead.toNat < q.array.length := by omega
  have hr : read q.array q.ihead = .ok (q.array[q.ihead.toNat]) :=
    read_ok hh0 (List.getElem?_eq_getElem hidx)
  have hm : q.entry_count ≠ 1 → 0 < q.array_capacity ∧ 0 ≤ q.ihead + 1 :=
    fun _ => ⟨hc1, by omega⟩
  have h1 : ¬ q.entry_count = 1 := by omega
  have hnl : (new_array (Int.tdiv q.array_capacity 2) : List α).length
      = (q.array_capacity / 2).toNat := by
    simp [new_array, hd2]
  have hcopy : copy_entries q.array
      (if q.entry_count = 1 then q.ihead else (q.ihead + 1) % q.array_capacity)
      q.array_capacity (q.entry_count - 1).toNat 0
      (new_array (Int.tdiv q.array_capacity 2)) = .error .overflow := by
    rw [if_neg h1]
    have hcast : (((q.entry_count - 1).toNat : Nat) : Int) = q.entry_count - 1 := by omega
    have := copy_entries_overflow q.array ((q.ihead + 1) % q.array_capacity)
      q.array_capacity hc1 hlen (Int.emod_nonneg _ (ne_of_gt hc1))
      (q.entry_count - 1).toNat 0 (new_array (Int.tdiv q.array_capacity 2))
      (by rw [hnl]; omega) (by omega) (by rw [hcast]; push_cast; omega)
    simpa using this
  exact dequeue_of_shrink_error q _ .overflow (by omega) hr hm hk hcopy

theorem enqueue_all_append [Inhabited α] (xs ys : List α) :
    ∀ q : Dynamic_queue_as_array α,
      enqueue_all q (xs ++ ys) = (enqueue_all q xs >>= fun q' => enqueue_all q' ys) := by
  induction xs with
  | nil => intro q; rfl
  | cons x xs ih =>
    intro q
    simp only [List.cons_append, enqueue_all, bind, Except.bind]
    cases enqueue q x with
    | error e => rfl
    | ok q1 => exact ih q1

theorem enqueue_all_spec [Inhabited α] (ys : List α) :
    ∀ {q : Dynamic_queue_as_array α} {xs : List α}, Represents q xs →
      (xs = [] → q.itail = 0) → (xs ≠ [] → q.ihead = 0) →
      q.array_capacity ≤ 2147483647 →
      (xs.length : Int) + (ys.length : Int) ≤ 1073741824 →
      ∃ q', enqueue_all q ys = .ok q' ∧ Represents q' (xs ++ ys) ∧
        q'.initial_capacity = q.initial_capacity ∧
        (xs ++ ys ≠ [] → q'.ihead = 0) ∧ q'.array_capacity ≤ 2147483647 ∧
        ((xs.length : Int) + (ys.length : Int) ≤ q.array_capacity →
          q'.array_capacity = q.array_capacity) := by
  induction ys with
  | nil =>
    intro q xs h _ hh hc _
    refine ⟨q, rfl, by simpa using h, rfl, ?_, hc, fun _ => rfl⟩
    intro hne
    exact hh (by simpa using hne)
  | cons y ys ih =>
    intro q xs h ht hh hc hb
    have hcap := h.cap_pos
    have hcnt := h.count_eq
    simp only [List.length_cons] at hb
    push_cast at hb
    have hov : q.entry_count = q.array_capacity → q.array_capacity * 2 ≤ 2147483647 := by
      intro hf
      omega
    have htv : xs = [] → 0 ≤ q.itail ∧ q.itail < q.array_capacity := by
      intro hnil
      rw [ht hnil]
      omega
    obtain ⟨q1, e1, r1, i1, c1, h1⟩ := enqueue_spec h htv hov y
    have hh1 : xs ++ [y] ≠ [] → q1.ihead = 0 := by
      intro _
      rw [h1]
      by_cases hz : q.entry_count = 0
      · rw [if_pos hz]
        have hnil : xs = [] := by
          apply List.length_eq_zero.mp
          omega
        exact ht hnil
      · rw [if_neg hz]
        split
        · rfl
        · have hne : xs ≠ [] := by
            intro hnil
            rw [hnil] at hcnt
            simp at hcnt
            exact hz hcnt
          exact hh hne
    have hc1 : q1.array_capacity ≤ 2147483647 := by
      rw [c1]
      split
      · rename_i hf
        exact hov hf
      · exact hc
    obtain ⟨q2, e2, r2, i2, h2, c2, g2⟩ := ih r1 (fun hnil => by simp at hnil) hh1 hc1 (by
      simp only [List.length_append, List.length_singleton]
      push_cast
      omega)
    refine ⟨q2, ?_, by simpa using r2, by rw [i2, i1], ?_, c2, ?_⟩
    · simp only [enqueue_all, e1, bind, Except.bind]
      exact e2
    · intro _
      exact h2 (by simp)
    · intro hle
      simp only [List.length_cons] at hle
      push_cast at hle
      have hnf : ¬ q.entry_count = q.array_capacity := by omega
      rw [if_neg hnf] at c1
      rw [g2 (by
        simp only [List.length_append, List.length_singleton]
        push_cast
        rw [c1]
        omega), c1]

theorem dequeue_n_spec [Inhabited α] (xs : List α) :
    ∀ {q : Dynamic_queue_as_array α} {ys : List α}, Represents q (xs ++ ys) →
      (xs ++ ys ≠ [] → q.ihead + ((xs ++ ys).length : Int) ≤ q.array_capacity) →
      q.array_capacity ≤ 2147483647 →
      ∃ q', dequeue_n q xs.length = .ok (xs, q') ∧ Represents q' ys ∧
        q'.initial_capacity = q.initial_capacity := by
  induction xs with
  | nil =>
    intro q ys h _ _
    exact ⟨q, rfl, by simpa using h, rfl⟩
  | cons x xs ih =>
    intro q ys h hw hc
    have h' : Represents q (x :: (xs ++ ys)) := by simpa using h
    have hcap := h'.cap_pos
    have hcnt := h'.count_eq
    have hh0 := h'.head_lo (List.cons_ne_nil _ _)
    have hw' := hw (by simp)
    simp only [List.cons_append, List.length_cons] at hcnt hw'
    push_cast at hcnt hw'
    have hd2 : Int.tdiv q.array_capacity 2 = q.array_capacity / 2 :=
      Int.tdiv_eq_ediv (by omega) (by norm_num)
    have hstep : 2 ≤ q.entry_count →
        (q.ihead + 1) % q.array_capacity = q.ihead + 1 := by
      intro h2
      exact Int.emod_eq_of_lt (by omega) (by omega)
    have hsum : q.entry_count - 1 ≤ Int.tdiv q.array_capacity 4 ∧
        q.array_capacity > q.initial_capacity → 2 ≤ q.entry_count →
        (q.ihead + 1) % q.array_capacity + (q.entry_count - 2) ≤ 2147483647 := by
      intro _ h2
      rw [hstep h2]
      omega
    obtain ⟨q1, e1, r1, i1, c1, _, g1⟩ := dequeue_spec h' hsum
    have hle1 := r1.count_le
    have hw1 : xs ++ ys ≠ [] → q1.ihead + ((xs ++ ys).length : Int) ≤ q1.array_capacity := by
      intro hne
      have hpos : 0 < (xs ++ ys).length := List.length_pos.mpr hne
      rw [g1, c1]
      split
      · omega
      · have h1 : ¬ q.entry_count = 1 := by omega
        rw [if_neg h1, hstep (by omega)]
        omega
    have hc1 : q1.array_capacity ≤ 2147483647 := by
      rw [c1]
      split
      · rw [hd2]; omega
      · exact hc
    obtain ⟨q2, e2, r2, i2⟩ := ih r1 hw1 hc1
    refine ⟨q2, ?_, r2, by rw [i2, i1]⟩
    simp only [List.length_cons, dequeue_n, e1, e2, bind, Except.bind]
    rfl

theorem enqueue_ok_spec [Inhabited α] {q q' : Dynamic_queue_as_array α} {xs : List α}
    {obj : α} (r : Represents q xs) (he : enqueue q obj = .ok q') :
    Represents q' (xs ++ [obj]) ∧ q'.initial_capacity = q.initial_capacity ∧
      q'.array_capacity =
        (if q.entry_count = q.array_capacity then q.array_capacity * 2
         else q.array_capacity) := by
  have ht : xs = [] → 0 ≤ q.itail ∧ q.itail < q.array_capacity := by
    intro hnil
    subst hnil
    have hc : q.entry_count = 0 := by simpa using r.count_eq
    have := enqueue_empty_ok_tail hc he
    rw [r.length_eq] at this
    exact this
  have hov : q.entry_count = q.array_capacity → q.array_capacity * 2 ≤ 2147483647 := by
    intro hf
    by_contra hc
    have hcap := r.cap_pos
    rw [enqueue_full_overflow q obj (by omega) hf (by omega)] at he
    cases he
  obtain ⟨q1, e1, r1, i1, c1, _⟩ := enqueue_spec r ht hov obj
  rw [he] at e1
  cases e1
  exact ⟨r1, i1, c1⟩

theorem dequeue_ok_spec [Inhabited α] {q q' : Dynamic_queue_as_array α} {xs : List α}
    {x : α} (r : Represents q xs) (hd : dequeue q = .ok (x, q')) :
    ∃ ys, xs = x :: ys ∧ Represents q' ys ∧
      q'.initial_capacity = q.initial_capacity ∧
      q'.array_capacity =
        (if q.entry_count - 1 ≤ Int.tdiv q.array_capacity 4 ∧
            q.array_capacity > q.initial_capacity
         then Int.tdiv q.array_capacity 2 else q.array_capacity) ∧
      (2 ≤ q.initial_capacity ∨ ys ≠ [] →
        0 ≤ q'.itail ∧ q'.itail < q'.array_capacity) := by
  cases xs with
  | nil =>
    have hc : q.entry_count = 0 := by simpa using r.count_eq
    rw [dequeue_of_empty q hc] at hd
    cases hd
  | cons y ys =>
    have hsum : q.entry_count - 1 ≤ Int.tdiv q.array_capacity 4 ∧
        q.array_capacity > q.initial_capacity → 2 ≤ q.entry_count →
        (q.ihead + 1) % q.array_capacity + (q.entry_count - 2) ≤ 2147483647 := by
      intro hk h2
      by_contra hc
      rw [dequeue_shrink_overflow q r.length_eq (r.head_lo (List.cons_ne_nil _ _))
        (r.head_hi (List.cons_ne_nil _ _)) h2 hk (by omega)] at hd
      cases hd
    obtain ⟨q1, e1, r1, i1, c1, v1, _⟩ := dequeue_spec r hsum
    rw [hd] at e1
    cases e1
    exact ⟨ys, rfl, r1, i1, c1, v1⟩

theorem reachable_represents [Inhabited α] {n : Int} {q : Dynamic_queue_as_array α}
    (h : Reachable n q) :
    ∃ xs, Represents q xs ∧ q.initial_capacity = max n 1 ∧
      (2 ≤ q.initial_capacity ∨ xs ≠ [] →
        0 ≤ q.itail ∧ q.itail < q.array_capacity) := by
  induction h with
  | construct =>
    refine ⟨[], represents_construct n, rfl, fun _ => ?_⟩
    simp only [construct]
    omega
  | @enqueue q q' obj _ he ih =>
    obtain ⟨xs, r, hi, _⟩ := ih
    obtain ⟨r1, i1, _⟩ := enqueue_ok_spec r he
    refine ⟨_, r1, by rw [i1, hi], fun _ => ?_⟩
    have hne : xs ++ [obj] ≠ [] := by simp
    have hc := r1.cap_pos
    rw [r1.tail_eq hne]
    exact ⟨Int.emod_nonneg _ (by omega), Int.emod_lt_of_pos _ (by omega)⟩
  | @dequeue q q' x _ hd ih =>
    obtain ⟨xs, r, hi, _⟩ := ih
    obtain ⟨ys, _, r1, i1, _, v1⟩ := dequeue_ok_spec r hd
    refine ⟨_, r1, by rw [i1, hi], ?_⟩
    rw [i1]
    exact v1
  | @clear q _ ih =>
    obtain ⟨xs, r, hi, _⟩ := ih
    refine ⟨[], represents_clear r, by simpa [clear] using hi, fun _ => ?_⟩
    have := r.init_pos
    simp only [clear]
    omega

/-! Runs stay among the reachable states -/

theorem reachable_call [Inhabited α] {n : Int} {q q' : Dynamic_queue_as_array α}
    {c : Call α} {a : Answer α} (hq : Reachable n q) (h : call q c = .ok (a, q')) :
    Reachable n q' := by
  cases c with
  | enqueue obj =>
    simp only [call, bind, Except.bind, pure, Except.pure] at h
    cases he : enqueue q obj with
    | error e => rw [he] at h; cases h
    | ok q1 =>
      rw [he] at h
      cases h
      exact Reachable.enqueue obj hq he
  | dequeue =>
    simp only [call] at h
    cases hd : dequeue q with
    | error e =>
      rw [hd] at h
      cases e <;> cases h
      exact hq
    | ok r =>
      obtain ⟨x, q1⟩ := r
      rw [hd] at h
      cases h
      exact Reachable.dequeue hq hd
  | clear =>
    simp only [call] at h
    cases h
    exact Reachable.clear hq
  | head =>
    simp only [call] at h
    cases hd : head q with
    | error e =>
      rw [hd] at h
      cases e <;> cases h
      exact hq
    | ok r =>
      rw [hd] at h
      cases h
      exact hq
  | size => simp only [call] at h; cases h; exact hq
  | empty => simp only [call] at h; cases h; exact hq
  | capacity => simp only [call] at h; cases h; exact hq

theorem reachable_run [Inhabited α] {n : Int} (cs : List (Call α)) :
    ∀ {q q' : Dynamic_queue_as_array α} {as : List (Answer α)},
      Reachable n q → run q cs = .ok (as, q') → Reachable n q' := by
  induction cs with
  | nil =>
    intro q q' as hq h
    simp only [run] at h
    cases h
    exact hq
  | cons c cs ih =>
    intro q q' as hq h
    simp only [run, bind, Except.bind, pure, Except.pure] at h
    cases hc : call q c with
    | error e => rw [hc] at h; cases h
    | ok r =>
      obtain ⟨a, q1⟩ := r
      rw [hc] at h
      simp only at h
      cases hr : run q1 cs with
      | error e => rw [hr] at h; cases h
      | ok r2 =>
        obtain ⟨as2, q2⟩ := r2
        rw [hr] at h
        cases h
        exact ih (reachable_call hq hc) hr

/-! The copy constructor -/

theorem copy_slots_spec (src : List α) :
    ∀ (n k : Nat) (dst : List α), k + n ≤ dst.length → k + n ≤ src.length →
      ∃ dst', copy_slots src n (k : Int) dst = .ok dst' ∧
        dst'.length = dst.length ∧
        ∀ j : Nat, dst'[j]? = if k ≤ j ∧ j < k + n then src[j]? else dst[j]? := by
  intro n
  induction n with
  | zero =>
    intro k dst _ _
    refine ⟨dst, rfl, rfl, ?_⟩
    intro j
    have : ¬ (k ≤ j ∧ j < k + 0) := by omega
    rw [if_neg this]
  | succ n ih =>
    intro k dst hk hs
    have hidx : k < src.length := by omega
    obtain ⟨dst', h1, h2, h3⟩ :=
      ih (k + 1) (dst.set k (src[k])) (by rw [List.length_set]; omega) (by omega)
    refine ⟨dst', ?_, ?_, ?_⟩
    · have hr : read src (k : Int) = .ok (src[k]) :=
        read_ok (by omega) (by simp [List.getElem?_eq_getElem hidx])
      have hw : write dst (k : Int) (src[k]) = .ok (dst.set k (src[k])) := by
        have := write_ok (a := dst) (i := (k : Int)) (src[k]) (by omega) (by omega)
        simpa using this
      have h1' : copy_slots src n ((k : Int) + 1) (dst.set k (src[k])) = .ok dst' := by
        have : ((k + 1 : Nat) : Int) = (k : Int) + 1 := by push_cast; ring
        rw [← this]; exact h1
      simp only [copy_slots, hr, hw, h1', bind, Except.bind]
    · rw [h2, List.length_set]
    · intro j
      rw [h3 j]
      by_cases hj : j = k
      · subst hj
        have c1 : ¬ (j + 1 ≤ j ∧ j < j + 1 + n) := by omega
        have c2 : j ≤ j ∧ j < j + (n + 1) := by omega
        have hjl : j < dst.length := by omega
        rw [if_neg c1, if_pos c2, List.getElem?_set]
        simp [hjl, List.getElem?_eq_getElem hidx]
      · by_cases hr : k ≤ j ∧ j < k + (n + 1)
        · have c1 : k + 1 ≤ j ∧ j < k + 1 + n := by omega
          rw [if_pos c1, if_pos hr]
        · have c1 : ¬ (k + 1 ≤ j ∧ j < k + 1 + n) := by omega
          rw [if_neg c1, if_neg hr, List.getElem?_set]
          have : ¬ k = j := fun h => hj h.symm
          simp [this]

theorem copy_construct_eq [Inhabited α] (q : Dynamic_queue_as_array α)
    (hlen : (q.array.length : Int) = q.array_capacity) : copy_construct q = .ok q := by
  have hnl : (new_array q.array_capacity : List α).length = q.array.length := by
    simp only [new_array, List.length_replicate]
    omega
  have hn : q.array_capacity.toNat = q.array.length := by omega
  obtain ⟨dst', h1, h2, h3⟩ :=
    copy_slots_spec q.array q.array.length 0 (new_array q.array_capacity)
      (by rw [hnl]; omega) (by omega)
  have heq : dst' = q.array := by
    apply List.ext_getElem?
    intro j
    rw [h3 j]
    by_cases hj : j < q.array.length
    · rw [if_pos (by omega)]
    · rw [if_neg (by omega)]
      have a1 : (new_array q.array_capacity : List α)[j]? = none :=
        List.getElem?_eq_none (by rw [hnl]; omega)
      have a2 : q.array[j]? = none := List.getElem?_eq_none (by omega)
      rw [a1, a2]
  subst heq
  have h1' : copy_slots q.array q.array_capacity.toNat 0 (new_array q.array_capacity)
      = .ok q.array := by
    rw [hn]; simpa using h1
  simp only [copy_construct, h1', bind, Except.bind, pure, Except.pure]

/-! Which calls throw `underflow` -/

theorem read_ne_underflow (a : List α) (i : Int) : read a i ≠ .error .underflow := by
  unfold read
  split
  · split <;> simp
  · simp

theorem write_ne_underflow (a : List α) (i : Int) (x : α) :
    write a i x ≠ .error .underflow := by
  unfold write
  split <;> simp

theorem cmod_ne_underflow (a b : Int) : cmod a b ≠ .error .underflow := by
  unfold cmod
  split <;> simp

theorem cadd_ne_underflow (a b : Int) : cadd a b ≠ .error .underflow := by
  unfold cadd
  split <;> simp

theorem cmul_ne_underflow (a b : Int) : cmul a b ≠ .error .underflow := by
  unfold cmul
  split <;> simp

theorem bind_ne_underflow {β γ : Type} (x : Except QueueError β)
    (f : β → Except QueueError γ) (hx : x ≠ .error .underflow)
    (hf : ∀ b, f b ≠ .error .underflow) : (x >>= f) ≠ .error .underflow := by
  cases x with
  | error e =>
    intro h
    exact hx (by simpa [bind, Except.bind] using h)
  | ok b => exact hf b

theorem copy_entries_ne_underflow (old : List α) (ihead cap : Int) :
    ∀ (n : Nat) (i : Int) (dst : List α),
      copy_entries old ihead cap n i dst ≠ .error .underflow := by
  intro n
  induction n with
  | zero => intro i dst; simp [copy_entries]
  | succ n ih =>
    intro i dst
    unfold copy_entries
    exact bind_ne_underflow _ _ (cadd_ne_underflow _ _) (fun s =>
      bind_ne_underflow _ _ (cmod_ne_underflow _ _) (fun j =>
        bind_ne_underflow _ _ (read_ne_underflow _ _) (fun x =>
          bind_ne_underflow _ _ (write_ne_underflow _ _ _) (fun d => ih _ _))))

theorem head_underflow_iff (q : Dynamic_queue_as_array α) :
    head q = .error .underflow ↔ q.entry_count = 0 := by
  constructor
  · intro h
    by_contra hc
    have he : (q.entry_count == 0) = false := by simpa using hc
    simp only [head, empty, he] at h
    exact read_ne_underflow _ _ h
  · exact head_of_empty q

theorem dequeue_underflow_iff [Inhabited α] (q : Dynamic_queue_as_array α) :
    dequeue q = .error .underflow ↔ q.entry_count = 0 := by
  constructor
  · intro h
    by_contra hc
    have he : (q.entry_count == 0) = false := by simpa using hc
    simp only [dequeue, empty, he, Bool.false_eq_true, if_false] at h
    have hp : ∀ {β : Type} (b : β),
        (pure b : Except QueueError β) ≠ .error .underflow := by
      intro β b hb
      cases hb
    refine bind_ne_underflow _ _ (hp _) (fun _ =>
      bind_ne_underflow _ _ (read_ne_underflow _ _) (fun element => ?_)) h
    split
    · refine bind_ne_underflow _ _ (hp _) (fun y => ?_)
      split
      · exact bind_ne_underflow _ _ (copy_entries_ne_underflow _ _ _ _ _ _) (fun _ => hp _)
      · exact hp _
    · refine bind_ne_underflow _ _ (cmod_ne_underflow _ _) (fun hd =>
        bind_ne_underflow _ _ (hp _) (fun y => ?_))
      split
      · exact bind_ne_underflow _ _ (copy_entries_ne_underflow _ _ _ _ _ _) (fun _ => hp _)
      · exact hp _
  · exact dequeue_of_empty q

/-! Queues filled up to the limit of `int` -/

theorem reachable_enqueue_all [Inhabited α] {n : Int} (xs : List α) :
    ∀ {q q' : Dynamic_queue_as_array α},
      Reachable n q → enqueue_all q xs = .ok q' → Reachable n q' := by
  induction xs with
  | nil =>
    intro q q' hq h
    cases h
    exact hq
  | cons x xs ih =>
    intro q q' hq h
    simp only [enqueue_all, bind, Except.bind] at h
    cases he : enqueue q x with
    | error e => rw [he] at h; cases h
    | ok q1 =>
      rw [he] at h
      exact ih (Reachable.enqueue x hq he) h

theorem filled_to_limit [Inhabited α] (xs : List α)
    (hlen : (xs.length : Int) = 1073741824) :
    ∃ q : Dynamic_queue_as_array α,
      enqueue_all (construct 1073741824) xs = .ok q ∧ Represents q xs ∧
      q.entry_count = 1073741824 ∧ q.array_capacity = 1073741824 := by
  have r0 : Represents (construct 1073741824 : Dynamic_queue_as_array α) [] :=
    represents_construct 1073741824
  have hc0 : (construct 1073741824 : Dynamic_queue_as_array α).array_capacity
      = 1073741824 := by
    simp [construct]
  obtain ⟨q, e1, r1, _, _, _, g1⟩ :=
    enqueue_all_spec xs r0 (fun _ => rfl) (fun h => absurd rfl h)
      (by rw [hc0]; norm_num)
      (by simp only [List.length_nil, Nat.cast_zero]; omega)
  rw [List.nil_append] at r1
  refine ⟨q, e1, r1, by rw [r1.count_eq, hlen], ?_⟩
  rw [g1 (by simp only [List.length_nil, Nat.cast_zero]; rw [hc0]; omega), hc0]

theorem enqueue_all_overflow_at_limit [Inhabited α] (xs : List α) (x : α)
    (hlen : (xs.length : Int) = 1073741824) :
    enqueue_all (construct 1073741824 : Dynamic_queue_as_array α) (xs ++ [x])
      = .error .overflow := by
  obtain ⟨q, e1, _, hc, hcap⟩ := filled_to_limit xs hlen
  have he : enqueue q x = .error .overflow :=
    enqueue_full_overflow q x (by omega) (by rw [hc, hcap]) (by rw [hcap]; norm_num)
  rw [enqueue_all_append, e1]
  simp only [bind, Except.bind, enqueue_all, he]

theorem run_enqueue_error [Inhabited α] (xs : List α) (e : QueueError) :
    ∀ q : Dynamic_queue_as_array α, enqueue_all q xs = .error e →
      run q (xs.map Call.enqueue) = .error e := by
  induction xs with
  | nil =>
    intro q h
    cases h
  | cons x xs ih =>
    intro q h
    simp only [enqueue_all, bind, Except.bind] at h
    simp only [List.map_cons, run, call, bind, Except.bind, pure, Except.pure]
    cases he : enqueue q x with
    | error e1 =>
      rw [he] at h
      cases h
      rfl
    | ok q1 =>
      rw [he] at h
      simp only at h ⊢
      rw [ih q1 h]

/-! Counting over runs -/

theorem call_size [Inhabited α] {q q' : Dynamic_queue_as_array α} {xs : List α}
    {c : Call α} {a : Answer α} (r : Represents q xs) (hc : c ≠ Call.clear)
    (h : call q c = .ok (a, q')) :
    ∃ ys, Represents q' ys ∧
      ∀ (cs : List (Call α)) (as : List (Answer α)),
        q'.entry_count + net_count cs as = q.entry_count + net_count (c :: cs) (a :: as) := by
  cases c with
  | enqueue obj =>
    simp only [call, bind, Except.bind, pure, Except.pure] at h
    cases he : enqueue q obj with
    | error e => rw [he] at h; cases h
    | ok q1 =>
      rw [he] at h
      cases h
      obtain ⟨r1, _, _⟩ := enqueue_ok_spec r he
      refine ⟨_, r1, fun cs as => ?_⟩
      have h1 := r1.count_eq
      have h0 := r.count_eq
      simp only [List.length_append, List.length_singleton] at h1
      push_cast at h1
      simp only [net_count]
      omega
  | dequeue =>
    simp only [call] at h
    cases hd : dequeue q with
    | error e =>
      rw [hd] at h
      cases e <;> cases h
      exact ⟨xs, r, fun cs as => by simp only [net_count]⟩
    | ok p =>
      obtain ⟨x, q1⟩ := p
      rw [hd] at h
      cases h
      obtain ⟨ys, hxs, r1, _⟩ := dequeue_ok_spec r hd
      refine ⟨ys, r1, fun cs as => ?_⟩
      have h1 := r1.count_eq
      have h0 := r.count_eq
      rw [hxs] at h0
      simp only [List.length_cons] at h0
      push_cast at h0
      simp only [net_count]
      omega
  | clear => exact absurd rfl hc
  | head =>
    simp only [call] at h
    cases hd : head q with
    | error e =>
      rw [hd] at h
      cases e <;> cases h
      exact ⟨xs, r, fun cs as => by simp only [net_count]⟩
    | ok x =>
      rw [hd] at h
      cases h
      exact ⟨xs, r, fun cs as => by simp only [net_count]⟩
  | size =>
    simp only [call] at h
    cases h
    exact ⟨xs, r, fun cs as => by simp only [net_count]⟩
  | empty =>
    simp only [call] at h
    cases h
    exact ⟨xs, r, fun cs as => by simp only [net_count]⟩
  | capacity =>
    simp only [call] at h
    cases h
    exact ⟨xs, r, fun cs as => by simp only [net_count]⟩

theorem run_size [Inhabited α] (cs : List (Call α)) :
    ∀ {q q' : Dynamic_queue_as_array α} {xs : List α} {as : List (Answer α)},
      Represents q xs → (∀ c ∈ cs, c ≠ Call.clear) → run q cs = .ok (as, q') →
      ∃ ys, Represents q' ys ∧ q'.entry_count = q.entry_count + net_count cs as := by
  induction cs with
  | nil =>
    intro q q' xs as r _ h
    simp only [run] at h
    cases h
    exact ⟨xs, r, by simp [net_count]⟩
  | cons c cs ih =>
    intro q q' xs as r hcs h
    simp only [run, bind, Except.bind, pure, Except.pure] at h
    cases hc : call q c with
    | error e => rw [hc] at h; cases h
    | ok p =>
      obtain ⟨a, q1⟩ := p
      rw [hc] at h
      simp only at h
      cases hr : run q1 cs with
      | error e => rw [hr] at h; cases h
      | ok p2 =>
        obtain ⟨as2, q2⟩ := p2
        rw [hr] at h
        cases h
        obtain ⟨ys, r1, hn⟩ := call_size r (hcs c (List.mem_cons_self c cs)) hc
        obtain ⟨zs, r2, h2⟩ :=
          ih r1 (fun d hd => hcs d (List.mem_cons_of_mem c hd)) hr
        refine ⟨zs, r2, ?_⟩
        have := hn cs as2
        dsimp only at h2 ⊢
        omega

theorem run_take [Inhabited α] (cs : List (Call α)) :
    ∀ {q q' : Dynamic_queue_as_array α} {as : List (Answer α)} (k : Nat),
      run q cs = .ok (as, q') →
      ∃ as1 q1, run q (cs.take k) = .ok (as1, q1) := by
  induction cs with
  | nil =>
    intro q q' as k _
    exact ⟨[], q, by simp [run]⟩
  | cons c cs ih =>
    intro q q' as k h
    cases k with
    | zero => exact ⟨[], q, by simp [run]⟩
    | succ k =>
      simp only [run, bind, Except.bind, pure, Except.pure] at h
      cases hc : call q c with
      | error e => rw [hc] at h; cases h
      | ok p =>
        obtain ⟨a, q1⟩ := p
        rw [hc] at h
        simp only at h
        cases hr : run q1 cs with
        | error e => rw [hr] at h; cases h
        | ok p2 =>
          obtain ⟨as2, q2⟩ := p2
          obtain ⟨as3, q3, h3⟩ := ih k hr
          refine ⟨a :: as3, q3, ?_⟩
          simp only [List.take_succ_cons, run, hc, h3, bind, Except.bind, pure, Except.pure]

/-! Bounds that keep the copy loop of `dequeue` inside `int` -/

theorem shrink_sum_of_capacity_le (q : Dynamic_queue_as_array α)
    (hc1 : 0 < q.array_capacity) (hcap : q.array_capacity ≤ 1073741824) :
    q.entry_count - 1 ≤ Int.tdiv q.array_capacity 4 ∧
        q.array_capacity > q.initial_capacity → 2 ≤ q.entry_count →
      (q.ihead + 1) % q.array_capacity + (q.entry_count - 2) ≤ 2147483647 := by
  intro hk _
  have hd4 : Int.tdiv q.array_capacity 4 = q.array_capacity / 4 :=
    Int.tdiv_eq_ediv (by omega) (by norm_num)
  have h1 : (q.ihead + 1) % q.array_capacity < q.array_capacity :=
    Int.emod_lt_of_pos _ hc1
  have h2 := hk.1
  rw [hd4] at h2
  omega

/-! The logical contents, and reachability with copies -/

theorem reachable_of_with_copy [Inhabited α] {n : Int} {q : Dynamic_queue_as_array α}
    (h : Reachable_with_copy n q) : Reachable n q := by
  induction h with
  | construct => exact Reachable.construct
  | enqueue obj _ he ih => exact Reachable.enqueue obj ih he
  | dequeue _ hd ih => exact Reachable.dequeue ih hd
  | clear _ ih => exact Reachable.clear ih
  | @copy q q' _ hc ih =>
    obtain ⟨xs, r, _⟩ := reachable_represents ih
    rw [copy_construct_eq q r.length_eq] at hc
    cases hc
    exact ih

theorem head_spec {q : Dynamic_queue_as_array α} {x : α} {xs : List α}
    (r : Represents q (x :: xs)) : head q = .ok x := by
  have hh0 := r.head_lo (List.cons_ne_nil _ _)
  have hh1 := r.head_hi (List.cons_ne_nil _ _)
  have hc := r.count_eq
  simp only [List.length_cons] at hc
  push_cast at hc
  have he : (q.entry_count == 0) = false := by
    have : q.entry_count ≠ 0 := by omega
    simpa using this
  have := r.entries 0 (by simp)
  simp only [Nat.cast_zero, add_zero, Int.emod_eq_of_lt hh0 hh1,
    List.getElem_cons_zero] at this
  simp only [head, empty, he]
  exact read_ok hh0 this

/-! Calls that return -/

theorem enqueue_ok_slot [Inhabited α] {q q' : Dynamic_queue_as_array α} {obj : α}
    (h : enqueue q obj = .ok q') :
    ∃ p, enqueue_slot q = .ok p ∧ p.array_capacity = q'.array_capacity := by
  simp only [enqueue, bind, Except.bind, pure, Except.pure] at h
  cases hp : enqueue_slot q with
  | error e => rw [hp] at h; cases h
  | ok p =>
    rw [hp] at h
    dsimp only at h
    cases hw : write p.array p.itail obj with
    | error e => rw [hw] at h; cases h
    | ok a =>
      rw [hw] at h
      cases h
      exact ⟨p, rfl, rfl⟩

theorem enqueue_slot_spec [Inhabited α] {q : Dynamic_queue_as_array α} {xs : List α}
    (r : Represents q xs)
    (hov : q.entry_count = q.array_capacity → q.array_capacity * 2 ≤ 2147483647) :
    ∃ p, enqueue_slot q = .ok p ∧
      p.array_capacity =
        (if q.entry_count = q.array_capacity then q.array_capacity * 2
         else q.array_capacity) := by
  have hcap := r.cap_pos
  by_cases he : q.entry_count = 0
  · refine ⟨_, enqueue_slot_of_empty q he, ?_⟩
    have hnf : ¬ q.entry_count = q.array_capacity := by omega
    rw [if_neg hnf]
  · have hne : xs ≠ [] := by
      intro hnil
      have := r.count_eq
      rw [hnil] at this
      exact he (by simpa using this)
    obtain ⟨q', e1, _, _, c1, _⟩ := enqueue_spec r (fun hnil => absurd hnil hne) hov default
    obtain ⟨p, e2, c2⟩ := enqueue_ok_slot e1
    exact ⟨p, e2, by rw [c2, c1]⟩

theorem call_returns [Inhabited α] {n : Int} {q : Dynamic_queue_as_array α}
    (hq : Reachable n q) (hn : 2 ≤ n) (hn1 : n ≤ 1073741824)
    (hs : q.entry_count < 268435456) (c : Call α) :
    ∃ a q', call q c = .ok (a, q') ∧ q'.entry_count ≤ q.entry_count + 1 := by
  obtain ⟨xs, r, hi, hv⟩ := reachable_represents hq
  have hcap := r.cap_pos
  have hcnt := r.count_eq
  have hinit : 2 ≤ q.initial_capacity := by
    rw [hi]
    exact le_trans hn (le_max_left n 1)
  have hinit1 : q.initial_capacity ≤ 1073741824 := by
    rw [hi]
    exact max_le hn1 (by norm_num)
  have hle : q.array_capacity ≤ 1073741824 := by
    by_cases hlt : q.initial_capacity < q.array_capacity
    · have := r.occupancy hlt
      omega
    · omega
  cases c with
  | enqueue obj =>
    obtain ⟨q', e1, r1, _⟩ :=
      enqueue_spec r (fun _ => hv (Or.inl hinit)) (fun _ => by omega) obj
    refine ⟨.done, q', ?_, ?_⟩
    · simp only [call, e1, bind, Except.bind, pure, Except.pure]
    · have h1 := r1.count_eq
      simp only [List.length_append, List.length_singleton] at h1
      push_cast at h1
      omega
  | dequeue =>
    cases xs with
    | nil =>
      have hc : q.entry_count = 0 := by simpa using hcnt
      refine ⟨.thrown_underflow, q, ?_, by omega⟩
      simp only [call, dequeue_of_empty q hc]
    | cons y ys =>
      obtain ⟨q', e1, r1, _⟩ :=
        dequeue_spec r (shrink_sum_of_capacity_le q (by omega) hle)
      refine ⟨.entry y, q', ?_, ?_⟩
      · simp only [call, e1]
      · have h1 := r1.count_eq
        simp only [List.length_cons] at hcnt
        push_cast at hcnt
        omega
  | clear =>
    refine ⟨.done, clear q, rfl, ?_⟩
    show (0 : Int) ≤ q.entry_count + 1
    omega
  | head =>
    cases xs with
    | nil =>
      have hc : q.entry_count = 0 := by simpa using hcnt
      refine ⟨.thrown_underflow, q, ?_, by omega⟩
      simp only [call, head_of_empty q hc]
    | cons y ys =>
      refine ⟨.entry y, q, ?_, by omega⟩
      simp only [call, head_spec r]
  | size => exact ⟨_, q, rfl, by omega⟩
  | empty => exact ⟨_, q, rfl, by omega⟩
  | capacity => exact ⟨_, q, rfl, by omega⟩

theorem run_returns [Inhabited α] {n : Int} (hn : 2 ≤ n) (hn1 : n ≤ 1073741824)
    (cs : List (Call α)) :
    ∀ q : Dynamic_queue_as_array α, Reachable n q →
      q.entry_count + (cs.length : Int) ≤ 268435456 →
      ∃ as q', run q cs = .ok (as, q') := by
  induction cs with
  | nil =>
    intro q _ _
    exact ⟨[], q, rfl⟩
  | cons c cs ih =>
    intro q hq hlen
    simp only [List.length_cons] at hlen
    push_cast at hlen
    obtain ⟨a, q1, e1, h1⟩ := call_returns hq hn hn1 (by omega) c
    obtain ⟨as, q2, e2⟩ := ih q1 (reachable_call hq e1) (by omega)
    exact ⟨a :: as, q2, by simp only [run, e1, e2, bind, Except.bind, pure, Except.pure]⟩

/-! The claims -/

/-- C1 (counterexample): on a queue constructed with argument `2^30`, enqueuing
`2^30 + 1` values does not return: after `2^30` of them the queue is full, and in
the next `enqueue` the product `array_capacity * 2` is `2^31`, outside `int`. -/
theorem fifo_overflow_at_limit :
    enqueue_all (construct 1073741824 : Dynamic_queue_as_array Nat)
      (List.replicate 1073741824 0 ++ [0]) = .error .overflow :=
  enqueue_all_overflow_at_limit (List.replicate 1073741824 0) 0
    (by rw [List.length_replicate]; rfl)

/-- C1 (amended): for every constructor argument up to `INT_MAX` (arguments
below `1` included) and every list of at most `2^30` values, enqueuing the values
in order on the constructed queue returns every time, the same number of
`dequeue` calls then return every time and yield exactly the enqueued values in
the order they were enqueued, and the final `size()` is `0`. -/
theorem fifo_from_fresh [Inhabited α] (n : Int) (xs : List α)
    (hn : n ≤ INT_MAX) (hxs : (xs.length : Int) ≤ 1073741824) :
    ∃ q q', enqueue_all (construct n) xs = .ok q ∧
      dequeue_n q xs.length = .ok (xs, q') ∧ size q' = 0 := by
  have r0 : Represents (construct n : Dynamic_queue_as_array α) [] :=
    represents_construct n
  have hc0 : (construct n : Dynamic_queue_as_array α).array_capacity ≤ 2147483647 := by
    simp only [INT_MAX] at hn
    simp only [construct]
    omega
  obtain ⟨q, e1, r1, _, h1, c1, _⟩ :=
    enqueue_all_spec xs r0 (fun _ => rfl) (fun h => absurd rfl h) hc0
      (by simp only [List.length_nil, Nat.cast_zero]; omega)
  have r1' : Represents q (xs ++ []) := by simpa using r1
  have hle := r1'.count_le
  obtain ⟨q', e2, r2, _⟩ := dequeue_n_spec xs r1' (by
    intro hne
    rw [h1 (by simpa using hne)]
    omega) c1
  exact ⟨q, q', e1, e2, by simpa [size] using r2.count_eq⟩

/-- The amended claim C1 for the constructor argument `0` and the values
`5, 6, 7`. -/
theorem fifo_from_fresh_witness :
    ((0 : Int) ≤ INT_MAX ∧ ((([5, 6, 7] : List Nat).length : Nat) : Int) ≤ 1073741824) ∧
    ∃ q q', enqueue_all (construct 0) ([5, 6, 7] : List Nat) = .ok q ∧
      dequeue_n q ([5, 6, 7] : List Nat).length = .ok ([5, 6, 7], q') ∧ size q' = 0 :=
  ⟨by decide, fifo_from_fresh 0 [5, 6, 7] (by decide) (by decide)⟩

/-- C2 (failing input): on a queue constructed with argument `1`, the calls
`enqueue(10)`, `enqueue(20)`, `dequeue()`, `dequeue()` return `10` and `20` in
order, and the `enqueue(30)` that follows writes outside the storage. -/
theorem interleaved_enqueue_out_of_bounds :
    run (construct 1 : Dynamic_queue_as_array Nat)
        [.enqueue 10, .enqueue 20, .dequeue, .dequeue]
      = .ok ([.done, .done, .entry 10, .entry 20],
          { initial_capacity := 1, array_capacity := 1, array := [0],
            ihead := 0, itail := -1, entry_count := 0 }) ∧
    run (construct 1 : Dynamic_queue_as_array Nat)
        [.enqueue 10, .enqueue 20, .dequeue, .dequeue, .enqueue 30]
      = .error .out_of_bounds := by
  decide

/-- C3 (failing input): on a queue constructed with argument `0`, after two
entries are enqueued and dequeued again the second `dequeue` has shrunk the
storage to one slot and left `itail = -1`, which is not in `[0, capacity)`; the
next `enqueue` stores through that index. -/
theorem enqueue_after_shrink_to_empty_invalid_slot :
    (do
      let q ← enqueue_all (construct 0 : Dynamic_queue_as_array Nat) [1, 2]
      let (_, q) ← dequeue_n q 2
      pure (q.entry_count, q.array_capacity, q.array.length, q.itail))
      = .ok (0, 1, 1, -1) ∧
    (do
      let q ← enqueue_all (construct 0 : Dynamic_queue_as_array Nat) [1, 2]
      let (_, q) ← dequeue_n q 2
      enqueue q 3) = .error .out_of_bounds := by
  decide

/-- C4 (counterexample): on a queue constructed with argument `2^30`, the run of
`2^30 + 1` calls of `enqueue` does not return: the last `enqueue` finds the queue
full, `array_capacity * 2` overflows `int`, and `size()` is not increased to the
number of calls. -/
theorem size_accounting_overflow_at_limit :
    run (construct 1073741824 : Dynamic_queue_as_array Nat)
      ((List.replicate 1073741824 0 ++ [0]).map Call.enqueue) = .error .overflow :=
  run_enqueue_error _ _ _
    (enqueue_all_overflow_at_limit (List.replicate 1073741824 0) 0
      (by rw [List.length_replicate]; rfl))

/-- C4 (amended): for every sequence of calls without `clear()` on a newly
constructed queue (any argument): if every call of the sequence returns or throws
`underflow`, then after the sequence, and after each of its prefixes, `size()` is
the number of `enqueue` calls minus the number of `dequeue` calls that returned an
entry (a `dequeue` that throws changes nothing), and
`0 <= size() <= capacity()`; and every call of the sequence does return or throw
`underflow` when the constructor argument is between `2` and `2^30` and the
sequence has at most `2^28` calls. -/
theorem size_accounting [Inhabited α] (n : Int) (cs : List (Call α))
    (hcs : ∀ c ∈ cs, c ≠ Call.clear) :
    (∀ (as : List (Answer α)) (q : Dynamic_queue_as_array α),
      run (construct n) cs = .ok (as, q) →
      (size q = net_count cs as ∧ 0 ≤ size q ∧ size q ≤ capacity q) ∧
      ∀ k : Nat, ∃ as1 q1, run (construct n) (cs.take k) = .ok (as1, q1) ∧
        size q1 = net_count (cs.take k) as1 ∧ 0 ≤ size q1 ∧ size q1 ≤ capacity q1) ∧
    (2 ≤ n → n ≤ 1073741824 → (cs.length : Int) ≤ 268435456 →
      ∃ as q, run (construct n) cs = .ok (as, q)) := by
  have r0 : Represents (construct n : Dynamic_queue_as_array α) [] :=
    represents_construct n
  have key : ∀ (ds : List (Call α)) (bs : List (Answer α))
      (p : Dynamic_queue_as_array α), (∀ c ∈ ds, c ≠ Call.clear) →
      run (construct n) ds = .ok (bs, p) →
      size p = net_count ds bs ∧ 0 ≤ size p ∧ size p ≤ capacity p := by
    intro ds bs p hds hr
    obtain ⟨ys, r, hc⟩ := run_size ds r0 hds hr
    have h1 := r.count_eq
    have h2 := r.count_le
    have h0 : (construct n : Dynamic_queue_as_array α).entry_count = 0 := rfl
    simp only [size, capacity]
    omega
  refine ⟨fun as q hrun => ⟨key cs as q hcs hrun, fun k => ?_⟩, fun hn hn1 hlen => ?_⟩
  · obtain ⟨as1, q1, h1⟩ := run_take cs k hrun
    exact ⟨as1, q1, h1, key _ as1 q1 (fun c hc => hcs c (List.mem_of_mem_take hc)) h1⟩
  · refine run_returns hn hn1 cs _ Reachable.construct ?_
    show (0 : Int) + (cs.length : Int) ≤ 268435456
    omega

/-- The amended claim C4 for a queue constructed with argument `1`: two `enqueue`
calls, two `dequeue` calls that return an entry and one that throws; and the
calls `enqueue(7)`, `enqueue(8)`, `enqueue(9)`, `dequeue()` on a queue constructed
with argument `2` all return. -/
theorem size_accounting_witness :
    ((∀ c ∈ ([.enqueue 1, .enqueue 2, .dequeue, .dequeue, .dequeue] : List (Call Nat)),
        c ≠ Call.clear) ∧
      run (construct 1 : Dynamic_queue_as_array Nat)
          [.enqueue 1, .enqueue 2, .dequeue, .dequeue, .dequeue]
        = .ok ([.done, .done, .entry 1, .entry 2, .thrown_underflow], shrunk_to_empty)) ∧
    ((∀ (as : List (Answer Nat)) (q : Dynamic_queue_as_array Nat),
      run (construct 1) [.enqueue 1, .enqueue 2, .dequeue, .dequeue, .dequeue]
        = .ok (as, q) →
      (size q = net_count
          ([.enqueue 1, .enqueue 2, .dequeue, .dequeue, .dequeue] : List (Call Nat)) as ∧
        0 ≤ size q ∧ size q ≤ capacity q) ∧
      ∀ k : Nat, ∃ as1 q1,
        run (construct 1 : Dynamic_queue_as_array Nat)
          (([.enqueue 1, .enqueue 2, .dequeue, .dequeue, .dequeue] : List (Call Nat)).take k)
            = .ok (as1, q1) ∧
        size q1 = net_count
          (([.enqueue 1, .enqueue 2, .dequeue, .dequeue, .dequeue] : List (Call Nat)).take k)
            as1 ∧
        0 ≤ size q1 ∧ size q1 ≤ capacity q1) ∧
    ((2 : Int) ≤ 1 → (1 : Int) ≤ 1073741824 →
      ((([.enqueue 1, .enqueue 2, .dequeue, .dequeue, .dequeue] :
        List (Call Nat)).length : Nat) : Int) ≤ 268435456 →
      ∃ as q, run (construct 1 : Dynamic_queue_as_array Nat)
        [.enqueue 1, .enqueue 2, .dequeue, .dequeue, .dequeue] = .ok (as, q))) ∧
    ∃ as q, run (construct 2 : Dynamic_queue_as_array Nat)
      [.enqueue 7, .enqueue 8, .enqueue 9, .dequeue] = .ok (as, q) :=
  ⟨⟨by decide, by decide⟩,
   size_accounting 1 [.enqueue 1, .enqueue 2, .dequeue, .dequeue, .dequeue] (by decide),
   (size_accounting 2 [.enqueue 7, .enqueue 8, .enqueue 9, .dequeue] (by decide)).2
    (by decide) (by decide) (by decide)⟩

/-- C5: in every state `head()` throws `underflow` exactly when `size() == 0`, and
so does `dequeue()`; hence both throw on every newly constructed queue, whatever
the constructor argument, and on every queue right after `clear()`. -/
theorem underflow_iff_size_zero [Inhabited α] :
    (∀ q : Dynamic_queue_as_array α,
      (head q = .error .underflow ↔ size q = 0) ∧
      (dequeue q = .error .underflow ↔ size q = 0)) ∧
    (∀ n : Int,
      head (construct n : Dynamic_queue_as_array α) = .error .underflow ∧
      dequeue (construct n : Dynamic_queue_as_array α) = .error .underflow) ∧
    (∀ q : Dynamic_queue_as_array α,
      head (clear q) = .error .underflow ∧ dequeue (clear q) = .error .underflow) :=
  ⟨fun q => ⟨head_underflow_iff q, dequeue_underflow_iff q⟩,
   fun _ => ⟨head_of_empty _ rfl, dequeue_of_empty _ rfl⟩,
   fun _ => ⟨head_of_empty _ rfl, dequeue_of_empty _ rfl⟩⟩

/-- C6 (counterexample): a queue constructed with argument `2^30` reaches, by
`2^30` calls of `enqueue`, a full state with `capacity() == 2^30` in which
`enqueue` of any value does not return, so that the capacity is not doubled:
`array_capacity * 2` overflows `int`. -/
theorem capacity_not_doubled_at_limit :
    ∃ q : Dynamic_queue_as_array Nat, Reachable 1073741824 q ∧
      size q = capacity q ∧ capacity q = 1073741824 ∧
      ∀ obj : Nat, enqueue q obj = .error .overflow := by
  obtain ⟨q, e1, _, hc, hcap⟩ :=
    filled_to_limit (List.replicate 1073741824 (0 : Nat))
      (by rw [List.length_replicate]; rfl)
  refine ⟨q, reachable_enqueue_all _ Reachable.construct e1, ?_, hcap, fun obj => ?_⟩
  · simp only [size, capacity, hc, hcap]
  · exact enqueue_full_overflow q obj (by omega) (by rw [hc, hcap])
      (by rw [hcap]; norm_num)

/-- C6 (amended): in every reachable state, an `enqueue` that returns leaves
`capacity()` unchanged unless the queue was full (`size() == capacity()`) before
the call, in which case `capacity()` is exactly doubled; a `dequeue` that returns
an entry leaves `capacity()` unchanged unless, after the removal,
`size() <= capacity() / 4` and `capacity() > initial_capacity`, in which case
`capacity()` becomes exactly `capacity() / 2`; in neither case does `capacity()`
fall below `initial_capacity`.  The statement that opens `enqueue` (all of it
before the store `array[itail] = obj`, and the only part that assigns
`array_capacity`) returns with that capacity unless the queue is full and
`2 * capacity()` exceeds `INT_MAX`.  `enqueue` returns whenever the queue is not full
or `2 * capacity()` is at most `INT_MAX`, in a queue that is not empty or has an
initial capacity of at least `2`; `dequeue` returns on every non-empty queue with
`capacity() <= 2^30`. -/
theorem capacity_policy [Inhabited α] (n : Int) (q : Dynamic_queue_as_array α)
    (h : Reachable n q) :
    (∀ (obj : α) (q' : Dynamic_queue_as_array α), enqueue q obj = .ok q' →
      capacity q' = (if size q = capacity q then 2 * capacity q else capacity q) ∧
      q'.initial_capacity = q.initial_capacity ∧ q'.initial_capacity ≤ capacity q') ∧
    (∀ (x : α) (q' : Dynamic_queue_as_array α), dequeue q = .ok (x, q') →
      capacity q' =
        (if size q - 1 ≤ Int.tdiv (capacity q) 4 ∧ capacity q > q.initial_capacity
         then Int.tdiv (capacity q) 2 else capacity q) ∧
      q'.initial_capacity = q.initial_capacity ∧ q'.initial_capacity ≤ capacity q') ∧
    q.initial_capacity ≤ capacity q ∧
    ((size q = capacity q → capacity q * 2 ≤ INT_MAX) →
      ∃ p, enqueue_slot q = .ok p ∧
        capacity p = (if size q = capacity q then 2 * capacity q else capacity q)) ∧
    ((size q ≠ 0 ∨ 2 ≤ q.initial_capacity) →
      (size q = capacity q → capacity q * 2 ≤ INT_MAX) →
      ∀ obj : α, ∃ q', enqueue q obj = .ok q') ∧
    (size q ≠ 0 → capacity q ≤ 1073741824 → ∃ x q', dequeue q = .ok (x, q')) := by
  obtain ⟨xs, r, _, hv⟩ := reachable_represents h
  have hcap := r.cap_pos
  have hcnt := r.count_eq
  refine ⟨?_, ?_, hcap.2, ?_, ?_, ?_⟩
  · intro obj q' he
    obtain ⟨r1, i1, c1⟩ := enqueue_ok_spec r he
    refine ⟨?_, i1, r1.cap_pos.2⟩
    simp only [size, capacity]
    rw [c1]
    split <;> ring
  · intro x q' hd
    obtain ⟨ys, _, r1, i1, c1, _⟩ := dequeue_ok_spec r hd
    exact ⟨c1, i1, r1.cap_pos.2⟩
  · intro hov
    simp only [size, capacity, INT_MAX] at hov ⊢
    obtain ⟨p, e1, c1⟩ := enqueue_slot_spec r hov
    refine ⟨p, e1, ?_⟩
    rw [c1]
    split <;> ring
  · intro hne hov obj
    have ht : xs = [] → 0 ≤ q.itail ∧ q.itail < q.array_capacity := by
      intro hnil
      apply hv
      rcases hne with hne | hne
      · rw [hnil] at hcnt
        simp only [size, List.length_nil, Nat.cast_zero] at hne hcnt
        exact absurd hcnt hne
      · exact Or.inl hne
    simp only [size, capacity, INT_MAX] at hov
    obtain ⟨q', e1, _⟩ := enqueue_spec r ht hov obj
    exact ⟨q', e1⟩
  · intro hne hle
    simp only [size, capacity] at hne hle
    cases xs with
    | nil =>
      simp only [List.length_nil, Nat.cast_zero] at hcnt
      exact absurd hcnt hne
    | cons y ys =>
      obtain ⟨q', e1, _⟩ :=
        dequeue_spec r (shrink_sum_of_capacity_le q (by omega) hle)
      exact ⟨y, q', e1⟩

/-- The amended claim C6 at the state after three `enqueue` calls on a queue
constructed with argument `2`. -/
theorem capacity_policy_witness :
    Reachable 2 grown_once ∧
    ((∀ (obj : Nat) (q' : Dynamic_queue_as_array Nat), enqueue grown_once obj = .ok q' →
      capacity q' = (if size grown_once = capacity grown_once
        then 2 * capacity grown_once else capacity grown_once) ∧
      q'.initial_capacity = grown_once.initial_capacity ∧
      q'.initial_capacity ≤ capacity q') ∧
    (∀ (x : Nat) (q' : Dynamic_queue_as_array Nat), dequeue grown_once = .ok (x, q') →
      capacity q' =
        (if size grown_once - 1 ≤ Int.tdiv (capacity grown_once) 4 ∧
            capacity grown_once > grown_once.initial_capacity
         then Int.tdiv (capacity grown_once) 2 else capacity grown_once) ∧
      q'.initial_capacity = grown_once.initial_capacity ∧
      q'.initial_capacity ≤ capacity q') ∧
    grown_once.initial_capacity ≤ capacity grown_once ∧
    ((size grown_once = capacity grown_once → capacity grown_once * 2 ≤ INT_MAX) →
      ∃ p, enqueue_slot grown_once = .ok p ∧
        capacity p = (if size grown_once = capacity grown_once
          then 2 * capacity grown_once else capacity grown_once)) ∧
    ((size grown_once ≠ 0 ∨ 2 ≤ grown_once.initial_capacity) →
      (size grown_once = capacity grown_once → capacity grown_once * 2 ≤ INT_MAX) →
      ∀ obj : Nat, ∃ q', enqueue grown_once obj = .ok q') ∧
    (size grown_once ≠ 0 → capacity grown_once ≤ 1073741824 →
      ∃ x q', dequeue grown_once = .ok (x, q'))) :=
  ⟨reachable_run [.enqueue 7, .enqueue 8, .enqueue 9] Reachable.construct
      (show run (construct 2) [.enqueue 7, .enqueue 8, .enqueue 9]
        = .ok ([.done, .done, .done], grown_once) by decide),
   capacity_policy 2 grown_once
    (reachable_run [.enqueue 7, .enqueue 8, .enqueue 9] Reachable.construct
      (show run (construct 2) [.enqueue 7, .enqueue 8, .enqueue 9]
        = .ok ([.done, .done, .done], grown_once) by decide))⟩

/-- C7: in every state reachable from a queue constructed with argument `n` by
`enqueue`, `dequeue` and `clear`, `initial_capacity` is `max(n, 1)` and
`capacity()` is `initial_capacity * 2^k` for some natural `k`; so
`capacity() >= initial_capacity >= 1`, and above the initial capacity the
capacity is even, i.e. halving it is exact. -/
theorem capacity_shape [Inhabited α] (n : Int) (q : Dynamic_queue_as_array α)
    (h : Reachable n q) :
    q.initial_capacity = max n 1 ∧
    (∃ k : Nat, capacity q = q.initial_capacity * 2 ^ k) ∧
    1 ≤ q.initial_capacity ∧ q.initial_capacity ≤ capacity q ∧
    (q.initial_capacity < capacity q → 2 * Int.tdiv (capacity q) 2 = capacity q) := by
  obtain ⟨xs, r, hi, _⟩ := reachable_represents h
  refine ⟨hi, r.shape, r.init_pos, r.cap_pos.2, fun hlt => ?_⟩
  obtain ⟨k, _, hk⟩ := r.halving hlt
  have hc := r.cap_pos
  simp only [capacity] at hlt ⊢
  rw [Int.tdiv_eq_ediv (by omega) (by norm_num)]
  omega

/-- The claim C7 at the state after three `enqueue` calls on a queue constructed
with argument `2`. -/
theorem capacity_shape_witness :
    Reachable 2 grown_once ∧
    (grown_once.initial_capacity = max 2 1 ∧
      (∃ k : Nat, capacity grown_once = grown_once.initial_capacity * 2 ^ k) ∧
      1 ≤ grown_once.initial_capacity ∧
      grown_once.initial_capacity ≤ capacity grown_once ∧
      (grown_once.initial_capacity < capacity grown_once →
        2 * Int.tdiv (capacity grown_once) 2 = capacity grown_once)) :=
  ⟨reachable_run [.enqueue 7, .enqueue 8, .enqueue 9] Reachable.construct
      (show run (construct 2) [.enqueue 7, .enqueue 8, .enqueue 9]
        = .ok ([.done, .done, .done], grown_once) by decide),
   capacity_shape 2 grown_once
    (reachable_run [.enqueue 7, .enqueue 8, .enqueue 9] Reachable.construct
      (show run (construct 2) [.enqueue 7, .enqueue 8, .enqueue 9]
        = .ok ([.done, .done, .done], grown_once) by decide))⟩

/-- C8: in every reachable state, however large the queue has grown, `clear()`
leaves `size() == 0`, `empty()` true, `capacity() == initial_capacity` with
`initial_capacity` unchanged, `ihead == initial_capacity - 1` and `itail == 0`;
these are the values of a newly constructed queue of that initial capacity, and
the whole state is that of a newly constructed queue. -/
theorem clear_resets [Inhabited α] (n : Int) (q : Dynamic_queue_as_array α)
    (h : Reachable n q) :
    size (clear q) = 0 ∧ empty (clear q) = true ∧
    capacity (clear q) = q.initial_capacity ∧
    (clear q).initial_capacity = q.initial_capacity ∧
    (clear q).ihead = q.initial_capacity - 1 ∧ (clear q).itail = 0 ∧
    (clear q).ihead = (construct q.initial_capacity : Dynamic_queue_as_array α).ihead ∧
    (clear q).itail = (construct q.initial_capacity : Dynamic_queue_as_array α).itail ∧
    clear q = construct q.initial_capacity ∧ clear q = construct n := by
  obtain ⟨xs, r, hi, _⟩ := reachable_represents h
  have hp := r.init_pos
  have hm : max q.initial_capacity 1 = q.initial_capacity := max_eq_left hp
  have hn : max n 1 = q.initial_capacity := hi.symm
  refine ⟨rfl, rfl, rfl, rfl, rfl, rfl, ?_, rfl, ?_, ?_⟩
  · simp only [clear, construct, hm]
  · simp only [clear, construct, hm]
  · simp only [clear, construct, hn]

/-- The claim C8 at the state after three `enqueue` calls on a queue constructed
with argument `2`, where the capacity has grown to `4`. -/
theorem clear_resets_witness :
    Reachable 2 grown_once ∧
    (size (clear grown_once) = 0 ∧ empty (clear grown_once) = true ∧
      capacity (clear grown_once) = grown_once.initial_capacity ∧
      (clear grown_once).initial_capacity = grown_once.initial_capacity ∧
      (clear grown_once).ihead = grown_once.initial_capacity - 1 ∧
      (clear grown_once).itail = 0 ∧
      (clear grown_once).ihead
        = (construct grown_once.initial_capacity : Dynamic_queue_as_array Nat).ihead ∧
      (clear grown_once).itail
        = (construct grown_once.initial_capacity : Dynamic_queue_as_array Nat).itail ∧
      clear grown_once = construct grown_once.initial_capacity ∧
      clear grown_once = construct 2) :=
  ⟨reachable_run [.enqueue 7, .enqueue 8, .enqueue 9] Reachable.construct
      (show run (construct 2) [.enqueue 7, .enqueue 8, .enqueue 9]
        = .ok ([.done, .done, .done], grown_once) by decide),
   clear_resets 2 grown_once
    (reachable_run [.enqueue 7, .enqueue 8, .enqueue 9] Reachable.construct
      (show run (construct 2) [.enqueue 7, .enqueue 8, .enqueue 9]
        = .ok ([.done, .done, .done], grown_once) by decide))⟩

/-- C9: for every queue whose storage has `capacity()` slots, the copy constructor
returns a queue with the same `initial_capacity`, `capacity()`, `ihead`, `itail`
and `size()` and the same value in every storage slot, occupied or not; so
`head()` agrees, and every sequence of calls on the copy yields what it yields
on the original.  The original is a value the constructor only reads. -/
theorem copy_preserves_state [Inhabited α] (q : Dynamic_queue_as_array α)
    (hlen : (q.array.length : Int) = q.array_capacity) :
    ∃ c, copy_construct q = .ok c ∧
      c.initial_capacity = q.initial_capacity ∧ capacity c = capacity q ∧
      c.ihead = q.ihead ∧ c.itail = q.itail ∧ size c = size q ∧
      c.array.length = q.array.length ∧ (∀ i : Nat, c.array[i]? = q.array[i]?) ∧
      head c = head q ∧ (∀ cs : List (Call α), run c cs = run q cs) ∧ c = q :=
  ⟨q, copy_construct_eq q hlen, rfl, rfl, rfl, rfl, rfl, rfl, fun _ => rfl, rfl,
    fun _ => rfl, rfl⟩

/-- The claim C9 at the state after three `enqueue` calls on a queue constructed
with argument `2`: four slots, one of them unoccupied. -/
theorem copy_preserves_state_witness :
    ((grown_once.array.length : Int) = grown_once.array_capacity) ∧
    ∃ c, copy_construct grown_once = .ok c ∧
      c.initial_capacity = grown_once.initial_capacity ∧
      capacity c = capacity grown_once ∧
      c.ihead = grown_once.ihead ∧ c.itail = grown_once.itail ∧
      size c = size grown_once ∧
      c.array.length = grown_once.array.length ∧
      (∀ i : Nat, c.array[i]? = grown_once.array[i]?) ∧
      head c = head grown_once ∧
      (∀ cs : List (Call Nat), run c cs = run grown_once cs) ∧ c = grown_once :=
  ⟨by decide, copy_preserves_state grown_once (by decide)⟩

/-- C10: `a.swap(b)` leaves in `a` exactly the former state of `b` (all six
members) and in `b` exactly the former state of `a`; so `size()`, `capacity()`
and `head()` are exchanged, and swapping twice restores both queues. -/
theorem swap_exchanges (a b : Dynamic_queue_as_array α) :
    swap a b = (b, a) ∧
    (swap a b).1.initial_capacity = b.initial_capacity ∧
    (swap a b).1.array_capacity = b.array_capacity ∧
    (swap a b).1.array = b.array ∧
    (swap a b).1.ihead = b.ihead ∧
    (swap a b).1.itail = b.itail ∧
    (swap a b).1.entry_count = b.entry_count ∧
    (swap a b).2.initial_capacity = a.initial_capacity ∧
    (swap a b).2.array_capacity = a.array_capacity ∧
    (swap a b).2.array = a.array ∧
    (swap a b).2.ihead = a.ihead ∧
    (swap a b).2.itail = a.itail ∧
    (swap a b).2.entry_count = a.entry_count ∧
    size (swap a b).1 = size b ∧ size (swap a b).2 = size a ∧
    capacity (swap a b).1 = capacity b ∧ capacity (swap a b).2 = capacity a ∧
    head (swap a b).1 = head b ∧ head (swap a b).2 = head a ∧
    swap (swap a b).1 (swap a b).2 = (a, b) :=
  ⟨rfl, rfl, rfl, rfl, rfl, rfl, rfl, rfl, rfl, rfl, rfl, rfl, rfl, rfl, rfl, rfl, rfl,
    rfl, rfl, rfl⟩

/-- C11: for every pair of queues, where the storage of `other` has `capacity()`
slots, `self = other` leaves in `self` the state the copy constructor builds
from `other`: the same `initial_capacity`, `capacity()`, `ihead`, `itail`,
`size()` and slot values as `other`; `other` is a value the operator only reads.
In particular self-assignment leaves the state unchanged. -/
theorem assign_copies [Inhabited α] (self other : Dynamic_queue_as_array α)
    (hlen : (other.array.length : Int) = other.array_capacity) :
    (∃ s, assign self other = .ok s ∧ copy_construct other = .ok s ∧
      s.initial_capacity = other.initial_capacity ∧ capacity s = capacity other ∧
      s.ihead = other.ihead ∧ s.itail = other.itail ∧ size s = size other ∧
      s.array.length = other.array.length ∧
      (∀ i : Nat, s.array[i]? = other.array[i]?) ∧ s = other) ∧
    assign other other = .ok other := by
  have hc := copy_construct_eq other hlen
  have ha : ∀ s : Dynamic_queue_as_array α, assign s other = .ok other := by
    intro s
    simp only [assign, hc, bind, Except.bind, pure, Except.pure]
    rfl
  exact ⟨⟨other, ha self, hc, rfl, rfl, rfl, rfl, rfl, rfl, fun _ => rfl, rfl⟩, ha other⟩

/-- The claim C11 for the assignment of a queue with three entries in four slots
to a full queue with four slots. -/
theorem assign_copies_witness :
    ((grown_once.array.length : Int) = grown_once.array_capacity) ∧
    ((∃ s, assign wrapped_full grown_once = .ok s ∧ copy_construct grown_once = .ok s ∧
      s.initial_capacity = grown_once.initial_capacity ∧
      capacity s = capacity grown_once ∧
      s.ihead = grown_once.ihead ∧ s.itail = grown_once.itail ∧
      size s = size grown_once ∧
      s.array.length = grown_once.array.length ∧
      (∀ i : Nat, s.array[i]? = grown_once.array[i]?) ∧ s = grown_once) ∧
    assign grown_once grown_once = .ok grown_once) :=
  ⟨by decide, assign_copies wrapped_full grown_once (by decide)⟩

/-- C12: for every integer `n`, zero and negative values included, the
constructor yields `capacity() == max(n, 1)`, `initial_capacity == max(n, 1)`,
storage of that many slots, `size() == 0` and `empty()` true; the constructor
without an argument yields `capacity() == 10`. -/
theorem construct_fields [Inhabited α] (n : Int) :
    capacity (construct n : Dynamic_queue_as_array α) = max n 1 ∧
    (construct n : Dynamic_queue_as_array α).initial_capacity = max n 1 ∧
    ((construct n : Dynamic_queue_as_array α).array.length : Int) = max n 1 ∧
    size (construct n : Dynamic_queue_as_array α) = 0 ∧
    empty (construct n : Dynamic_queue_as_array α) = true ∧
    capacity (construct_default : Dynamic_queue_as_array α) = 10 ∧
    size (construct_default : Dynamic_queue_as_array α) = 0 := by
  refine ⟨rfl, rfl, ?_, rfl, rfl, rfl, rfl⟩
  simp only [construct, new_array, List.length_replicate]
  omega

/-- C13: a queue constructed with argument `2` has `capacity() == 2`; after
`enqueue(A)`, `enqueue(B)`, `enqueue(C)`: `capacity() == 4`, `size() == 3`,
`head() == A`; the first `dequeue()` returns `A` with `size() == 2`,
`capacity() == 4`; the second returns `B` with `size() == 1`, `capacity() == 2`;
the third returns `C` with `size() == 0`, `capacity() == 2`. -/
theorem scenario_hint_two [Inhabited α] (A B C : α) :
    run (construct 2)
      [.capacity, .enqueue A, .enqueue B, .enqueue C, .capacity, .size, .head,
       .dequeue, .size, .capacity, .dequeue, .size, .capacity,
       .dequeue, .size, .capacity]
    = .ok ([.number 2, .done, .done, .done, .number 4, .number 3, .entry A,
            .entry A, .number 2, .number 4, .entry B, .number 1, .number 2,
            .entry C, .number 0, .number 2],
           { initial_capacity := 2, array_capacity := 2, array := [C, default],
             ihead := 0, itail := 0, entry_count := 0 }) := by
  rfl

/-- C14: in every reachable state, if an `enqueue` doubles the capacity, then the
`dequeue` issued immediately afterwards returns and leaves the capacity unchanged;
and if a `dequeue` halves the capacity, then the queue it leaves is not full, so
that in the `enqueue` issued immediately afterwards the statement that opens it
(all of `enqueue` before the store `array[itail] = obj`, and the only part that
assigns `array_capacity`) returns with the capacity unchanged, also when the
`dequeue` has emptied the queue; every such `enqueue` that returns leaves the
capacity unchanged, and it returns whenever the queue left by the `dequeue` is
not empty or the initial capacity is at least `2`. -/
theorem no_resize_oscillation [Inhabited α] (n : Int) (q : Dynamic_queue_as_array α)
    (h : Reachable n q) :
    (∀ (obj : α) (q1 : Dynamic_queue_as_array α), enqueue q obj = .ok q1 →
      capacity q1 = 2 * capacity q →
      ∃ x q2, dequeue q1 = .ok (x, q2) ∧ capacity q2 = capacity q1) ∧
    (∀ (x : α) (q1 : Dynamic_queue_as_array α), dequeue q = .ok (x, q1) →
      capacity q1 = Int.tdiv (capacity q) 2 →
      size q1 ≠ capacity q1 ∧
      (∃ p, enqueue_slot q1 = .ok p ∧ capacity p = capacity q1) ∧
      (∀ (obj : α) (q2 : Dynamic_queue_as_array α), enqueue q1 obj = .ok q2 →
        capacity q2 = capacity q1) ∧
      ((size q1 ≠ 0 ∨ 2 ≤ q.initial_capacity) →
        ∀ obj : α, ∃ q2, enqueue q1 obj = .ok q2 ∧ capacity q2 = capacity q1)) := by
  obtain ⟨xs, r, _, _⟩ := reachable_represents h
  have hcap := r.cap_pos
  have hcnt := r.count_eq
  have hle := r.count_le
  constructor
  · intro obj q1 he hdbl
    obtain ⟨r1, i1, c1⟩ := enqueue_ok_spec r he
    simp only [capacity] at hdbl ⊢
    have hfull : q.entry_count = q.array_capacity := by
      by_contra hnf
      rw [if_neg hnf] at c1
      omega
    have hcnt1 := r1.count_eq
    simp only [List.length_append, List.length_singleton] at hcnt1
    push_cast at hcnt1
    have hd4 : Int.tdiv q1.array_capacity 4 = q1.array_capacity / 4 :=
      Int.tdiv_eq_ediv (by omega) (by norm_num)
    have hnk : ¬ (q1.entry_count - 1 ≤ Int.tdiv q1.array_capacity 4 ∧
        q1.array_capacity > q1.initial_capacity) := by
      rw [hd4]
      omega
    cases hx : xs ++ [obj] with
    | nil => simp at hx
    | cons y ys =>
      rw [hx] at r1
      obtain ⟨q2, e2, _, _, c2, _⟩ := dequeue_spec r1 (fun hk _ => absurd hk hnk)
      rw [if_neg hnk] at c2
      exact ⟨y, q2, e2, c2⟩
  · intro x q1 hd hhalf
    obtain ⟨ys, hxs, r1, i1, c1, v1⟩ := dequeue_ok_spec r hd
    simp only [capacity, size] at hhalf ⊢
    have hd2 : Int.tdiv q.array_capacity 2 = q.array_capacity / 2 :=
      Int.tdiv_eq_ediv (by omega) (by norm_num)
    have hd4 : Int.tdiv q.array_capacity 4 = q.array_capacity / 4 :=
      Int.tdiv_eq_ediv (by omega) (by norm_num)
    have hk : q.entry_count - 1 ≤ Int.tdiv q.array_capacity 4 ∧
        q.array_capacity > q.initial_capacity := by
      by_contra hnk
      rw [if_neg hnk] at c1
      rw [hd2] at hhalf
      omega
    have hcnt1 := r1.count_eq
    have hip := r.init_pos
    rw [hxs] at hcnt
    simp only [List.length_cons] at hcnt
    push_cast at hcnt
    have hk1 := hk.1
    rw [hd4] at hk1
    rw [hd2] at hhalf
    have hnf : ¬ q1.entry_count = q1.array_capacity := by omega
    refine ⟨hnf, ?_, ?_, ?_⟩
    · obtain ⟨p, e1, c1⟩ := enqueue_slot_spec r1 (fun hf => absurd hf hnf)
      rw [if_neg hnf] at c1
      exact ⟨p, e1, c1⟩
    · intro obj q2 he
      obtain ⟨_, _, c2⟩ := enqueue_ok_spec r1 he
      rw [c2, if_neg hnf]
    · intro hne obj
      have ht : ys = [] → 0 ≤ q1.itail ∧ q1.itail < q1.array_capacity := by
        intro hnil
        apply v1
        rcases hne with hne | hne
        · rw [hnil] at hcnt1
          simp only [List.length_nil, Nat.cast_zero] at hcnt1
          exact absurd hcnt1 hne
        · exact Or.inl hne
      obtain ⟨q2, e2, _, _, c2, _⟩ :=
        enqueue_spec r1 ht (fun hf => absurd hf hnf) obj
      rw [if_neg hnf] at c2
      exact ⟨q2, e2, c2⟩

/-- The claim C14 at the state of a queue constructed with argument `1` after
`enqueue(1)`, `enqueue(2)`, `dequeue()`: the capacity is `2`, and the next
`dequeue` halves it and leaves the queue empty. -/
theorem no_resize_oscillation_witness :
    Reachable 1 before_halving ∧
    ((∀ (obj : Nat) (q1 : Dynamic_queue_as_array Nat), enqueue before_halving obj = .ok q1 →
      capacity q1 = 2 * capacity before_halving →
      ∃ x q2, dequeue q1 = .ok (x, q2) ∧ capacity q2 = capacity q1) ∧
    (∀ (x : Nat) (q1 : Dynamic_queue_as_array Nat), dequeue before_halving = .ok (x, q1) →
      capacity q1 = Int.tdiv (capacity before_halving) 2 →
      size q1 ≠ capacity q1 ∧
      (∃ p, enqueue_slot q1 = .ok p ∧ capacity p = capacity q1) ∧
      (∀ (obj : Nat) (q2 : Dynamic_queue_as_array Nat), enqueue q1 obj = .ok q2 →
        capacity q2 = capacity q1) ∧
      ((size q1 ≠ 0 ∨ 2 ≤ before_halving.initial_capacity) →
        ∀ obj : Nat, ∃ q2, enqueue q1 obj = .ok q2 ∧ capacity q2 = capacity q1))) :=
  ⟨reachable_run [.enqueue 1, .enqueue 2, .dequeue] Reachable.construct
      (show run (construct 1) [.enqueue 1, .enqueue 2, .dequeue]
        = .ok ([.done, .done, .entry 1], before_halving) by decide),
   no_resize_oscillation 1 before_halving
    (reachable_run [.enqueue 1, .enqueue 2, .dequeue] Reachable.construct
      (show run (construct 1) [.enqueue 1, .enqueue 2, .dequeue]
        = .ok ([.done, .done, .entry 1], before_halving) by decide))⟩

/-- C15 (counterexample): a full queue state with `2^30` slots and `ihead == 0`
meets the conditions of the claim, and `enqueue` does not return there:
`array_capacity * 2` is `2^31`, outside `int`, so no storage of
`2 * array_capacity` slots is built. -/
theorem grow_overflow_at_limit :
    ((full_at_limit.array.length : Int) = full_at_limit.array_capacity ∧
      full_at_limit.entry_count = full_at_limit.array_capacity ∧
      1 ≤ full_at_limit.array_capacity ∧ 0 ≤ full_at_limit.ihead ∧
      full_at_limit.ihead < full_at_limit.array_capacity) ∧
    enqueue full_at_limit 5 = .error .overflow := by
  refine ⟨⟨?_, by decide, by decide, by decide, by decide⟩, ?_⟩
  · simp only [full_at_limit, List.length_replicate]
    rfl
  · exact enqueue_full_overflow full_at_limit 5 (by decide) (by decide) (by decide)

/-- C15 (amended): for every full queue state (`entry_count == array_capacity >= 1`,
`ihead` in `[0, array_capacity)`, storage of `array_capacity` slots) with
`array_capacity * 2 <= INT_MAX`, and every value, `enqueue` returns; the new
storage has `2 * array_capacity` slots, slot `i` holds the old entry of old slot
`(ihead + i) mod array_capacity` for every `i` in `[0, entry_count)`, slot
`entry_count` holds the value, `ihead == 0`, `itail` is the old `entry_count` and
`size()` is the old `entry_count + 1`; wrapped rings (`ihead > 0`) included. -/
theorem grow_normalises [Inhabited α] (q : Dynamic_queue_as_array α) (v : α)
    (hlen : (q.array.length : Int) = q.array_capacity)
    (hfull : q.entry_count = q.array_capacity) (hcap : 1 ≤ q.array_capacity)
    (hh0 : 0 ≤ q.ihead) (hh1 : q.ihead < q.array_capacity)
    (hov : q.array_capacity * 2 ≤ INT_MAX) :
    ∃ q', enqueue q v = .ok q' ∧
      (q'.array.length : Int) = 2 * q.array_capacity ∧
      capacity q' = 2 * capacity q ∧
      (∀ i : Nat, (i : Int) < q.entry_count →
        ((q.ihead + (i : Int)) % q.array_capacity).toNat < q.array.length ∧
        q'.array[i]? = q.array[((q.ihead + (i : Int)) % q.array_capacity).toNat]?) ∧
      q'.array[q.entry_count.toNat]? = some v ∧
      q'.ihead = 0 ∧ q'.itail = q.entry_count ∧ size q' = q.entry_count + 1 ∧
      q'.initial_capacity = q.initial_capacity := by
  have hc1 : 0 < q.array_capacity := by omega
  simp only [INT_MAX] at hov
  have hnl : (new_array (q.array_capacity * 2) : List α).length
      = (q.array_capacity * 2).toNat := by
    simp [new_array]
  obtain ⟨newArray, c1, c2, c3⟩ :=
    copy_entries_spec q.array q.ihead q.array_capacity hc1 hlen hh0 q.entry_count.toNat 0
      (new_array (q.array_capacity * 2)) (by rw [hnl]; omega) (by
      intro _
      have hcast : ((q.entry_count.toNat : Nat) : Int) = q.entry_count := by omega
      rw [hcast]
      push_cast
      omega)
  have c1' : copy_entries q.array q.ihead q.array_capacity q.entry_count.toNat 0
      (new_array (q.array_capacity * 2)) = .ok newArray := by
    simpa using c1
  have hnl2 : (newArray.length : Int) = q.array_capacity * 2 := by
    rw [c2, hnl]; omega
  refine ⟨_, enqueue_of_full q v newArray (by omega) hfull hov c1' (by omega) (by omega),
    ?_, ?_, ?_, ?_, rfl, rfl, rfl, rfl⟩
  · show (((newArray.set q.entry_count.toNat v).length : Nat) : Int) = 2 * q.array_capacity
    rw [List.length_set]
    omega
  · show q.array_capacity * 2 = 2 * q.array_capacity
    ring
  · intro i hi
    have hlo : 0 ≤ (q.ihead + (i : Int)) % q.array_capacity :=
      Int.emod_nonneg _ (ne_of_gt hc1)
    have hhi : (q.ihead + (i : Int)) % q.array_capacity < q.array_capacity :=
      Int.emod_lt_of_pos _ hc1
    refine ⟨by omega, ?_⟩
    show (newArray.set q.entry_count.toNat v)[i]? = _
    rw [List.getElem?_set]
    have hne : ¬ q.entry_count.toNat = i := by omega
    rw [if_neg hne, c3 i, if_pos (by omega)]
  · show (newArray.set q.entry_count.toNat v)[q.entry_count.toNat]? = some v
    rw [List.getElem?_set]
    have hl : q.entry_count.toNat < newArray.length := by omega
    simp [hl]

/-- The amended claim C15 at a full queue of four slots whose ring is wrapped: the
entries `1, 2, 3, 4` sit in slots `2, 3, 0, 1`. -/
theorem grow_normalises_witness :
    ((wrapped_full.array.length : Int) = wrapped_full.array_capacity ∧
      wrapped_full.entry_count = wrapped_full.array_capacity ∧
      1 ≤ wrapped_full.array_capacity ∧ 0 ≤ wrapped_full.ihead ∧
      wrapped_full.ihead < wrapped_full.array_capacity ∧
      wrapped_full.array_capacity * 2 ≤ INT_MAX) ∧
    enqueue wrapped_full 5 = .ok
      { initial_capacity := 4, array_capacity := 8, array := [1, 2, 3, 4, 5, 0, 0, 0],
        ihead := 0, itail := 4, entry_count := 5 } ∧
    ∃ q', enqueue wrapped_full 5 = .ok q' ∧
      (q'.array.length : Int) = 2 * wrapped_full.array_capacity ∧
      capacity q' = 2 * capacity wrapped_full ∧
      (∀ i : Nat, (i : Int) < wrapped_full.entry_count →
        ((wrapped_full.ihead + (i : Int)) % wrapped_full.array_capacity).toNat
          < wrapped_full.array.length ∧
        q'.array[i]? = wrapped_full.array[
          ((wrapped_full.ihead + (i : Int)) % wrapped_full.array_capacity).toNat]?) ∧
      q'.array[wrapped_full.entry_count.toNat]? = some 5 ∧
      q'.ihead = 0 ∧ q'.itail = wrapped_full.entry_count ∧
      size q' = wrapped_full.entry_count + 1 ∧
      q'.initial_capacity = wrapped_full.initial_capacity :=
  ⟨by decide, by decide,
    grow_normalises wrapped_full 5 (by decide) (by decide) (by decide) (by decide)
      (by decide) (by decide)⟩

/-- C16 (counterexample): a queue state with capacity `2 * 10^9`, initial
capacity `10^9`, `ihead == 1800000000` and `500000001` entries meets the
conditions of the claim (`dequeue` triggers a shrink), and `dequeue` does not
return there: the copy loop adds `i` to the advanced `ihead == 1800000001`, and
the sum leaves `int` before the last of the `500000000` entries is copied. -/
theorem shrink_overflow_at_limit :
    ((shrink_at_limit.array.length : Int) = shrink_at_limit.array_capacity ∧
      1 ≤ shrink_at_limit.entry_count ∧ 0 ≤ shrink_at_limit.ihead ∧
      shrink_at_limit.ihead < shrink_at_limit.array_capacity ∧
      (shrink_at_limit.entry_count - 1 ≤ Int.tdiv shrink_at_limit.array_capacity 4 ∧
        shrink_at_limit.array_capacity > shrink_at_limit.initial_capacity)) ∧
    dequeue shrink_at_limit = .error .overflow := by
  have hlen : (shrink_at_limit.array.length : Int) = shrink_at_limit.array_capacity := by
    simp only [shrink_at_limit, List.length_replicate]
    rfl
  refine ⟨⟨hlen, by decide, by decide, by decide, by decide⟩, ?_⟩
  exact dequeue_shrink_overflow shrink_at_limit hlen (by decide) (by decide) (by decide)
    (by decide) (by decide)

/-- C16 (amended): for every queue state with `entry_count >= 1`, `ihead` in
`[0, array_capacity)` and storage of `array_capacity` slots in which `dequeue`
triggers a shrink (`entry_count - 1 <= array_capacity / 4` and
`array_capacity > initial_capacity`) and the index sums of the copy loop stay in
`int` (`(ihead + 1) mod array_capacity + (entry_count - 2) <= INT_MAX` when
`entry_count >= 2`), `dequeue` returns the entry of slot
`ihead`; the new storage has `array_capacity / 2` slots, slot `i` holds the old
entry of old slot `(ihead + 1 + i) mod array_capacity` for every `i` in
`[0, entry_count - 1)`, `ihead == 0` and `itail == (entry_count - 1) - 1`, the
new size minus one. -/
theorem shrink_normalises [Inhabited α] (q : Dynamic_queue_as_array α)
    (hlen : (q.array.length : Int) = q.array_capacity)
    (hcount : 1 ≤ q.entry_count) (hh0 : 0 ≤ q.ihead) (hh1 : q.ihead < q.array_capacity)
    (hshrink : q.entry_count - 1 ≤ Int.tdiv q.array_capacity 4 ∧
      q.array_capacity > q.initial_capacity)
    (hsum : 2 ≤ q.entry_count →
      (q.ihead + 1) % q.array_capacity + (q.entry_count - 2) ≤ INT_MAX) :
    ∃ x q', dequeue q = .ok (x, q') ∧ q.array[q.ihead.toNat]? = some x ∧
      (q'.array.length : Int) = Int.tdiv q.array_capacity 2 ∧
      capacity q' = Int.tdiv (capacity q) 2 ∧
      (∀ i : Nat, (i : Int) < q.entry_count - 1 →
        ((q.ihead + 1 + (i : Int)) % q.array_capacity).toNat < q.array.length ∧
        q'.array[i]? =
          q.array[((q.ihead + 1 + (i : Int)) % q.array_capacity).toNat]?) ∧
      q'.ihead = 0 ∧ q'.itail = (q.entry_count - 1) - 1 ∧
      q'.itail = size q' - 1 ∧ size q' = q.entry_count - 1 ∧
      q'.initial_capacity = q.initial_capacity := by
  have hc1 : 0 < q.array_capacity := by omega
  have hd4 : Int.tdiv q.array_capacity 4 = q.array_capacity / 4 :=
    Int.tdiv_eq_ediv (by omega) (by norm_num)
  have hd2 : Int.tdiv q.array_capacity 2 = q.array_capacity / 2 :=
    Int.tdiv_eq_ediv (by omega) (by norm_num)
  have hidx : q.ihead.toNat < q.array.length := by omega
  have hr : read q.array q.ihead = .ok (q.array[q.ihead.toNat]) :=
    read_ok hh0 (List.getElem?_eq_getElem hidx)
  have hm : q.entry_count ≠ 1 → 0 < q.array_capacity ∧ 0 ≤ q.ihead + 1 :=
    fun _ => ⟨hc1, by omega⟩
  have hnl : (new_array (Int.tdiv q.array_capacity 2) : List α).length
      = (q.array_capacity / 2).toNat := by
    simp [new_array, hd2]
  have hk4 : q.entry_count - 1 ≤ q.array_capacity / 4 := by rw [← hd4]; exact hshrink.1
  have g0 : 0 ≤ (if q.entry_count = 1 then q.ihead
      else (q.ihead + 1) % q.array_capacity) := by
    split
    · exact hh0
    · exact Int.emod_nonneg _ (ne_of_gt hc1)
  obtain ⟨newArray, c1, c2, c3⟩ :=
    copy_entries_spec q.array
      (if q.entry_count = 1 then q.ihead else (q.ihead + 1) % q.array_capacity)
      q.array_capacity hc1 hlen g0 (q.entry_count - 1).toNat 0
      (new_array (Int.tdiv q.array_capacity 2)) (by rw [hnl]; omega) (by
      intro hn0
      have h2 : 2 ≤ q.entry_count := by omega
      have h1 : ¬ q.entry_count = 1 := by omega
      have hs := hsum h2
      simp only [INT_MAX] at hs
      have hcast : (((q.entry_count - 1).toNat : Nat) : Int) = q.entry_count - 1 := by
        omega
      rw [if_neg h1, hcast]
      push_cast
      omega)
  have c1' : copy_entries q.array
      (if q.entry_count = 1 then q.ihead else (q.ihead + 1) % q.array_capacity)
      q.array_capacity (q.entry_count - 1).toNat 0
      (new_array (Int.tdiv q.array_capacity 2)) = .ok newArray := by
    simpa using c1
  refine ⟨_, _, dequeue_of_shrink q _ newArray (by omega) hr hm hshrink c1',
    List.getElem?_eq_getElem hidx, ?_, rfl, ?_, rfl, rfl, rfl, rfl, rfl⟩
  · show (newArray.length : Int) = Int.tdiv q.array_capacity 2
    rw [c2, hnl, hd2]
    omega
  · intro i hi
    have hlo : 0 ≤ (q.ihead + 1 + (i : Int)) % q.array_capacity :=
      Int.emod_nonneg _ (ne_of_gt hc1)
    have hhi : (q.ihead + 1 + (i : Int)) % q.array_capacity < q.array_capacity :=
      Int.emod_lt_of_pos _ hc1
    refine ⟨by omega, ?_⟩
    show newArray[i]? = _
    have h1 : ¬ q.entry_count = 1 := by omega
    rw [c3 i, if_pos (by omega), if_neg h1, Int.emod_add_emod]

/-- The amended claim C16 at a queue with two entries in four slots and an initial
capacity of two. -/
theorem shrink_normalises_witness :
    ((before_shrink.array.length : Int) = before_shrink.array_capacity ∧
      1 ≤ before_shrink.entry_count ∧ 0 ≤ before_shrink.ihead ∧
      before_shrink.ihead < before_shrink.array_capacity ∧
      (before_shrink.entry_count - 1 ≤ Int.tdiv before_shrink.array_capacity 4 ∧
        before_shrink.array_capacity > before_shrink.initial_capacity) ∧
      (2 ≤ before_shrink.entry_count →
        (before_shrink.ihead + 1) % before_shrink.array_capacity
          + (before_shrink.entry_count - 2) ≤ INT_MAX)) ∧
    dequeue before_shrink = .ok (8,
      { initial_capacity := 2, array_capacity := 2, array := [9, 0],
        ihead := 0, itail := 0, entry_count := 1 }) ∧
    ∃ x q', dequeue before_shrink = .ok (x, q') ∧
      before_shrink.array[before_shrink.ihead.toNat]? = some x ∧
      (q'.array.length : Int) = Int.tdiv before_shrink.array_capacity 2 ∧
      capacity q' = Int.tdiv (capacity before_shrink) 2 ∧
      (∀ i : Nat, (i : Int) < before_shrink.entry_count - 1 →
        ((before_shrink.ihead + 1 + (i : Int)) % before_shrink.array_capacity).toNat
          < before_shrink.array.length ∧
        q'.array[i]? = before_shrink.array[
          ((before_shrink.ihead + 1 + (i : Int)) % before_shrink.array_capacity).toNat]?) ∧
      q'.ihead = 0 ∧ q'.itail = (before_shrink.entry_count - 1) - 1 ∧
      q'.itail = size q' - 1 ∧ size q' = before_shrink.entry_count - 1 ∧
      q'.initial_capacity = before_shrink.initial_capacity :=
  ⟨by decide, by decide,
    shrink_normalises before_shrink (by decide) (by decide) (by decide) (by decide)
      (by decide) (by decide)⟩

/-- C17: for every queue state with storage of `array_capacity` slots and `itail`
in `[0, array_capacity)`: if `0 < entry_count < array_capacity`, `enqueue` sets
`itail` to `(itail + 1) mod array_capacity` (from `array_capacity - 1` to `0`),
writes the value into that slot, adds one to `entry_count` and leaves `ihead`,
`array_capacity`, `initial_capacity` and every other slot unchanged; if the queue
is empty, `enqueue` sets `ihead` to `itail`, writes the value there and leaves
`itail` and `array_capacity` unchanged. -/
theorem enqueue_without_resize [Inhabited α] (q : Dynamic_queue_as_array α) (v : α)
    (hlen : (q.array.length : Int) = q.array_capacity)
    (ht0 : 0 ≤ q.itail) (ht1 : q.itail < q.array_capacity) :
    (0 < q.entry_count → q.entry_count < q.array_capacity →
      ∃ q', enqueue q v = .ok q' ∧
        q'.itail = (q.itail + 1) % q.array_capacity ∧
        (q.itail = q.array_capacity - 1 → q'.itail = 0) ∧
        (q.itail < q.array_capacity - 1 → q'.itail = q.itail + 1) ∧
        q'.array[q'.itail.toNat]? = some v ∧
        q'.entry_count = q.entry_count + 1 ∧
        q'.ihead = q.ihead ∧ q'.array_capacity = q.array_capacity ∧
        q'.initial_capacity = q.initial_capacity ∧
        q'.array.length = q.array.length ∧
        (∀ j : Nat, j ≠ q'.itail.toNat → q'.array[j]? = q.array[j]?)) ∧
    (q.entry_count = 0 →
      ∃ q', enqueue q v = .ok q' ∧
        q'.ihead = q.itail ∧ q'.array[q.itail.toNat]? = some v ∧
        q'.itail = q.itail ∧ q'.array_capacity = q.array_capacity ∧
        q'.entry_count = 1 ∧ q'.initial_capacity = q.initial_capacity ∧
        q'.array.length = q.array.length ∧
        (∀ j : Nat, j ≠ q.itail.toNat → q'.array[j]? = q.array[j]?)) := by
  have hc1 : 0 < q.array_capacity := by omega
  constructor
  · intro hpos hroom
    have s0 : 0 ≤ (q.itail + 1) % q.array_capacity := Int.emod_nonneg _ (ne_of_gt hc1)
    have s1 : (q.itail + 1) % q.array_capacity < q.array_capacity :=
      Int.emod_lt_of_pos _ hc1
    refine ⟨_, enqueue_of_room q v (by omega) (by omega) hc1 (by omega) (by omega),
      rfl, ?_, ?_, ?_, rfl, rfl, rfl, rfl, ?_, ?_⟩
    · intro he
      show (q.itail + 1) % q.array_capacity = 0
      have : q.itail + 1 = q.array_capacity := by omega
      rw [this, Int.emod_self]
    · intro hl
      show (q.itail + 1) % q.array_capacity = q.itail + 1
      exact Int.emod_eq_of_lt (by omega) (by omega)
    · show (q.array.set ((q.itail + 1) % q.array_capacity).toNat v)[
        ((q.itail + 1) % q.array_capacity).toNat]? = some v
      rw [List.getElem?_set]
      have hl : ((q.itail + 1) % q.array_capacity).toNat < q.array.length := by omega
      simp [hl]
    · show (q.array.set ((q.itail + 1) % q.array_capacity).toNat v).length = q.array.length
      rw [List.length_set]
    · intro j hj
      show (q.array.set ((q.itail + 1) % q.array_capacity).toNat v)[j]? = q.array[j]?
      rw [List.getElem?_set]
      have hne : ¬ ((q.itail + 1) % q.array_capacity).toNat = j := fun h => hj h.symm
      rw [if_neg hne]
  · intro hempty
    refine ⟨_, enqueue_of_empty q v hempty ht0 (by omega), rfl, ?_, rfl, rfl, ?_, rfl,
      ?_, ?_⟩
    · show (q.array.set q.itail.toNat v)[q.itail.toNat]? = some v
      rw [List.getElem?_set]
      have hl : q.itail.toNat < q.array.length := by omega
      simp [hl]
    · show q.entry_count + 1 = 1
      omega
    · show (q.array.set q.itail.toNat v).length = q.array.length
      rw [List.length_set]
    · intro j hj
      show (q.array.set q.itail.toNat v)[j]? = q.array[j]?
      rw [List.getElem?_set]
      have hne : ¬ q.itail.toNat = j := fun h => hj h.symm
      rw [if_neg hne]

/-- The claim C17 at a queue with three entries in four slots (first part) and
at a newly constructed queue of two slots (second part). -/
theorem enqueue_without_resize_witness :
    (((grown_once.array.length : Int) = grown_once.array_capacity ∧
        0 ≤ grown_once.itail ∧ grown_once.itail < grown_once.array_capacity ∧
        0 < grown_once.entry_count ∧
        grown_once.entry_count < grown_once.array_capacity) ∧
      ∃ q', enqueue grown_once 5 = .ok q' ∧
        q'.itail = (grown_once.itail + 1) % grown_once.array_capacity ∧
        (grown_once.itail = grown_once.array_capacity - 1 → q'.itail = 0) ∧
        (grown_once.itail < grown_once.array_capacity - 1 →
          q'.itail = grown_once.itail + 1) ∧
        q'.array[q'.itail.toNat]? = some 5 ∧
        q'.entry_count = grown_once.entry_count + 1 ∧
        q'.ihead = grown_once.ihead ∧
        q'.array_capacity = grown_once.array_capacity ∧
        q'.initial_capacity = grown_once.initial_capacity ∧
        q'.array.length = grown_once.array.length ∧
        (∀ j : Nat, j ≠ q'.itail.toNat → q'.array[j]? = grown_once.array[j]?)) ∧
    ((((construct 2 : Dynamic_queue_as_array Nat).array.length : Int)
          = (construct 2 : Dynamic_queue_as_array Nat).array_capacity ∧
        0 ≤ (construct 2 : Dynamic_queue_as_array Nat).itail ∧
        (construct 2 : Dynamic_queue_as_array Nat).itail
          < (construct 2 : Dynamic_queue_as_array Nat).array_capacity ∧
        (construct 2 : Dynamic_queue_as_array Nat).entry_count = 0) ∧
      ∃ q', enqueue (construct 2 : Dynamic_queue_as_array Nat) 5 = .ok q' ∧
        q'.ihead = (construct 2 : Dynamic_queue_as_array Nat).itail ∧
        q'.array[(construct 2 : Dynamic_queue_as_array Nat).itail.toNat]? = some 5 ∧
        q'.itail = (construct 2 : Dynamic_queue_as_array Nat).itail ∧
        q'.array_capacity = (construct 2 : Dynamic_queue_as_array Nat).array_capacity ∧
        q'.entry_count = 1 ∧
        q'.initial_capacity
          = (construct 2 : Dynamic_queue_as_array Nat).initial_capacity ∧
        q'.array.length = (construct 2 : Dynamic_queue_as_array Nat).array.length ∧
        (∀ j : Nat, j ≠ (construct 2 : Dynamic_queue_as_array Nat).itail.toNat →
          q'.array[j]? = (construct 2 : Dynamic_queue_as_array Nat).array[j]?)) :=
  ⟨⟨by decide,
    (enqueue_without_resize grown_once 5 (by decide) (by decide) (by decide)).1
      (by decide) (by decide)⟩,
   ⟨by decide,
    (enqueue_without_resize (construct 2) 5 (by decide) (by decide) (by decide)).2
      (by decide)⟩⟩

/-- C18: in every state reachable from a constructed queue (any argument) by
`enqueue`, `dequeue`, `clear` and the copy constructor, if
`capacity() > initial_capacity` then `size() > capacity() / 4`, hence
`capacity() < 4 * size()`; so an empty queue has `capacity() == initial_capacity`;
and a `dequeue`, which halves the capacity at most once, leaves a state in which
the bound holds again. -/
theorem occupancy_above_floor [Inhabited α] (n : Int) (q : Dynamic_queue_as_array α)
    (h : Reachable_with_copy n q) :
    (q.initial_capacity < capacity q →
      Int.tdiv (capacity q) 4 < size q ∧ capacity q < 4 * size q) ∧
    (size q = 0 → capacity q = q.initial_capacity) ∧
    (∀ (x : α) (q' : Dynamic_queue_as_array α), dequeue q = .ok (x, q') →
      (capacity q' = capacity q ∨ capacity q' = Int.tdiv (capacity q) 2) ∧
      q'.initial_capacity = q.initial_capacity ∧
      (q'.initial_capacity < capacity q' →
        Int.tdiv (capacity q') 4 < size q' ∧ capacity q' < 4 * size q')) := by
  obtain ⟨xs, r, _, _⟩ := reachable_represents (reachable_of_with_copy h)
  have key : ∀ {p : Dynamic_queue_as_array α} {ys : List α}, Represents p ys →
      p.initial_capacity < capacity p →
      Int.tdiv (capacity p) 4 < size p ∧ capacity p < 4 * size p := by
    intro p ys rp hlt
    have hc := rp.cap_pos
    have ho := rp.occupancy hlt
    have hn := rp.count_eq
    simp only [capacity, size] at hlt ⊢
    rw [Int.tdiv_eq_ediv (by omega) (by norm_num)]
    omega
  refine ⟨key r, ?_, ?_⟩
  · intro hz
    have hc := r.cap_pos
    have hn := r.count_eq
    have ho := r.occupancy
    simp only [capacity, size] at hz ⊢
    by_contra hne
    have := ho (by omega)
    omega
  · intro x q' hd
    obtain ⟨ys, _, r1, i1, c1, _⟩ := dequeue_ok_spec r hd
    refine ⟨?_, i1, key r1⟩
    simp only [capacity]
    rw [c1]
    split
    · exact Or.inr rfl
    · exact Or.inl rfl

/-- The claim C18 at the copy of a queue with three entries in four slots. -/
theorem occupancy_above_floor_witness :
    Reachable_with_copy 2 grown_once ∧
    ((grown_once.initial_capacity < capacity grown_once →
      Int.tdiv (capacity grown_once) 4 < size grown_once ∧
        capacity grown_once < 4 * size grown_once) ∧
    (size grown_once = 0 → capacity grown_once = grown_once.initial_capacity) ∧
    (∀ (x : Nat) (q' : Dynamic_queue_as_array Nat), dequeue grown_once = .ok (x, q') →
      (capacity q' = capacity grown_once ∨
        capacity q' = Int.tdiv (capacity grown_once) 2) ∧
      q'.initial_capacity = grown_once.initial_capacity ∧
      (q'.initial_capacity < capacity q' →
        Int.tdiv (capacity q') 4 < size q' ∧ capacity q' < 4 * size q'))) :=
  ⟨Reachable_with_copy.copy
      (Reachable_with_copy.enqueue 9
        (Reachable_with_copy.enqueue 8
          (Reachable_with_copy.enqueue 7 Reachable_with_copy.construct
            (show enqueue (construct 2) 7 = .ok
              { initial_capacity := 2, array_capacity := 2, array := [7, 0],
                ihead := 0, itail := 0, entry_count := 1 } by decide))
          (show enqueue _ 8 = .ok
              { initial_capacity := 2, array_capacity := 2, array := [7, 8],
                ihead := 0, itail := 1, entry_count := 2 } by decide))
        (show enqueue _ 9 = .ok grown_once by decide))
      (show copy_construct grown_once = .ok grown_once by decide),
   occupancy_above_floor 2 grown_once
    (Reachable_with_copy.copy
      (Reachable_with_copy.enqueue 9
        (Reachable_with_copy.enqueue 8
          (Reachable_with_copy.enqueue 7 Reachable_with_copy.construct
            (show enqueue (construct 2) 7 = .ok
              { initial_capacity := 2, array_capacity := 2, array := [7, 0],
                ihead := 0, itail := 0, entry_count := 1 } by decide))
          (show enqueue _ 8 = .ok
              { initial_capacity := 2, array_capacity := 2, array := [7, 8],
                ihead := 0, itail := 1, entry_count := 2 } by decide))
        (show enqueue _ 9 = .ok grown_once by decide))
      (show copy_construct grown_once = .ok grown_once by decide))⟩

end Dynamic_queue_as_array
